import Mathlib

/-!
Shallow embedding of the pdf-python form-filling utilities.

The repository reads and fills interactive PDF forms (AcroForm and XFA).
PDF byte-level parsing (pikepdf) and XML tokenizing (lxml) are external
collaborators; we embed the repository's own logic over explicit models of
the data those libraries hand back:

* a widget's appearance dictionary (`Widget`, from `fill_acroform.py` /
  `extract_acroform.py`),
* checkbox / radio value application (`setCheckboxOrRadio`,
  `normalizeOnValue` from `fill_acroform.py`),
* the field-tree flattener (`walkFields` from `fill_acroform.py`),
* the multi-strategy key resolution of `fill_acroform_with_json`,
* the fillable-field listing of `extract_acroform.py`,
* the XFA template binding maps of `src/xfa_extract.py`,
* the datasets path resolver of `fill_xfa.py`,
* the error taxonomy of `src/xfa_extract.py` / `detect_form_type.py`.

PDF name objects are modelled by their serialized string form, which carries
the leading slash (the PDF name `Yes` prints as `"/Yes"`), exactly as the
Python code manipulates them after `str(...)` conversion.
-/

/-- Model of `to_str(obj)`: `str(obj) if obj is not None else ""`. -/
def toStrOpt : Option String → String
  | none => ""
  | some s => s

/-- Whitespace as Python `str.strip()` removes it (ASCII whitespace; the
names and keys handled here are ASCII). -/
def isPySpace (c : Char) : Bool :=
  c = ' ' || c = '\t' || c = '\n' || c = '\r' || c = '\x0b' || c = '\x0c'

/-- Model of Python `s.strip()`: drop whitespace from both ends. -/
def pyStrip (s : String) : String :=
  String.mk (((s.toList.dropWhile isPySpace).reverse.dropWhile isPySpace).reverse)

/-- Model of Python `s.lower()` (character-wise, ASCII-adequate). -/
def pyLower (s : String) : String :=
  String.mk (s.toList.map Char.toLower)

/-- Model of a Python value as found in the parsed JSON input (plus `bool`
and `int` which `json` produces; `float` is omitted, no claim needs it). -/
inductive PyVal where
  | pyStr (s : String)
  | pyInt (n : Int)
  | pyBool (b : Bool)
  | pyNone
  | pyList (elems : List PyVal)
  | pyDict (fields : List (String × PyVal))
deriving Repr

/-- Python truthiness (`bool(v)`) for the modelled values. -/
def pyTruthy : PyVal → Bool
  | .pyStr s => s ≠ ""
  | .pyInt n => n ≠ 0
  | .pyBool b => b
  | .pyNone => false
  | .pyList l => !l.isEmpty
  | .pyDict d => !d.isEmpty

/-- Appearance dictionary of a widget: `/AP` may be absent (`none`); when
present its `/N` sub-dictionary may be absent; when present we keep its key
list (PDF names, in the dictionary's own iteration order). -/
structure APDict where
  normal : Option (List String)
deriving DecidableEq, Repr

/-- A widget annotation: its `/AP` appearance dictionary and its current
`/AS` displayed-state name. -/
structure Widget where
  ap : Option APDict
  asName : String
deriving DecidableEq, Repr

/-- Model of `get_appearance_names(widget)` (identical in
`fill_acroform.py` and `extract_acroform.py`): returns `(on_names,
off_name)` from `/AP` `/N`.  An absent `/AP`, an absent `/N`, or an empty
`/N` key set (falsy in Python) yields the synthetic default
`(["/Yes"], "/Off")`.  The source computes
`off_name = "/Off" if "/Off" in names else "/Off"`; we keep that literal
shape. -/
def getAppearanceNames (w : Widget) : List String × String :=
  match w.ap with
  | none => (["/Yes"], "/Off")
  | some apd =>
    match apd.normal with
    | none => (["/Yes"], "/Off")
    | some names =>
      if names = [] then (["/Yes"], "/Off")
      else
        let offName := if names.contains "/Off" then "/Off" else "/Off"
        let onNames := names.filter (fun n => n ≠ offName)
        (if onNames = [] then ["/Yes"] else onNames, offName)

/-- Model of `is_push_button(ff)`: bit 16 of the `/Ff` flags. -/
def isPushButton (ff : Nat) : Bool := ff.land (2 ^ 16) ≠ 0

/-- Model of `is_radio(ff)`: bit 15 of the `/Ff` flags. -/
def isRadio (ff : Nat) : Bool := ff.land (2 ^ 15) ≠ 0

/-- Model of `is_read_only(ff)` from `extract_acroform.py`: bit 0. -/
def isReadOnly (ff : Nat) : Bool := ff.land 1 ≠ 0

/-- Model of `candidates[0]` in Python: on an empty list it raises
`IndexError`, which we surface as an `Except` error. -/
def headE (candidates : List String) : Except String (Option String) :=
  match candidates with
  | [] => .error "IndexError"
  | c :: _ => .ok (some c)

/-- Model of `normalize_on_value(val, candidates)` from `fill_acroform.py`:
a truthy bool/int selects `candidates[0]`; a string is stripped, given a
leading `/` if missing, matched case-insensitively against the candidates,
with truthy synonyms and finally any other non-empty string falling back to
`candidates[0]` (the source has two separate `return candidates[0]`
statements; both arms are kept).  Other types yield `None`. -/
def normalizeOnValue (val : PyVal) (candidates : List String) :
    Except String (Option String) :=
  match val with
  | .pyBool b => if b then headE candidates else .ok none
  | .pyInt n => if n ≠ 0 then headE candidates else .ok none
  | .pyStr s =>
    let v := pyStrip s
    if v = "" then .ok none
    else
      let v := if v.front ≠ '/' then "/" ++ v else v
      match candidates.find? (fun c => pyLower v = pyLower c) with
      | some c => .ok (some c)
      | none =>
        if ["/yes", "/on", "/true", "/1"].contains (pyLower v) then
          headE candidates
        else headE candidates
  | _ => .ok none

/-- Model of the candidate-collection loop at the top of
`set_checkbox_or_radio`: `all_on_names` accumulates each widget's on-names
without duplicates, and `off_name = off or off_name` keeps the last
non-empty off-name (starting from `"/Off"`). -/
def collectAll (widgets : List Widget) : List String × String :=
  widgets.foldl
    (fun acc w =>
      let onOff := getAppearanceNames w
      let offName := if onOff.2 = "" then acc.2 else onOff.2
      (onOff.1.foldl (fun l n => if l.contains n then l else l ++ [n]) acc.1,
       offName))
    ([], "/Off")

/-- Model of `set_checkbox_or_radio(field, widgets, value)`: returns the new
`/V` of the field together with the widgets carrying their new `/AS`.  A
push button is a no-op.  The Python guard `if selected_on:` is false both
for `None` and for an empty string, so the selected branches additionally
require the name to be non-empty.  The source computes `all_on_names` and
`off_name` once (and `off_name` always evaluates to `"/Off"`, see
`getAppearanceNames_snd`); the pure model recomputes `collectAll widgets`
at each use, which is the same value. -/
def setCheckboxOrRadio (ff : Nat) (fieldV : String) (widgets : List Widget)
    (value : PyVal) : Except String (String × List Widget) :=
  if isPushButton ff then .ok (fieldV, widgets)
  else
    match (if (collectAll widgets).1 ≠ [] then
            normalizeOnValue value (collectAll widgets).1
           else .ok none : Except String (Option String)) with
    | .error e => .error e
    | .ok selectedOn =>
      if isRadio ff then
        match selectedOn with
        | some sel =>
          if sel = "" then
            .ok ((collectAll widgets).2,
              widgets.map (fun w => { w with asName := (collectAll widgets).2 }))
          else
            .ok (sel, widgets.map (fun w =>
              { w with asName :=
                  if (getAppearanceNames w).1.contains sel then sel
                  else (getAppearanceNames w).2 }))
        | none =>
          .ok ((collectAll widgets).2,
            widgets.map (fun w => { w with asName := (collectAll widgets).2 }))
      else
        match selectedOn with
        | some sel =>
          if sel = "" then
            .ok ((collectAll widgets).2,
              widgets.map (fun w => { w with asName := (collectAll widgets).2 }))
          else
            .ok (sel, widgets.map (fun w =>
              { w with asName :=
                  match (getAppearanceNames w).1 with
                  | [] => "/Yes"
                  | o :: _ => o }))
        | none =>
          .ok ((collectAll widgets).2,
            widgets.map (fun w => { w with asName := (collectAll widgets).2 }))

/-! ## Name resolution over the flattened field table (`fill_acroform_with_json`) -/

/-- One flattened field entry as seen by the name-resolution loop:
`fullName` is the dot-joined name stored under `"name"`, and `localName`
is `name_of(field)`, i.e. the field's own `/T`. -/
structure FEntry where
  fullName : String
  localName : String
deriving DecidableEq, Repr

/-- Python `dict` assignment `m[k] = v` over an association list: an
existing key keeps its position and takes the new value, a new key is
appended. -/
def updAssoc {α : Type} (m : List (String × α)) (k : String) (v : α) :
    List (String × α) :=
  if m.any (fun p => p.1 = k) then
    m.map (fun p => if p.1 = k then (k, v) else p)
  else m ++ [(k, v)]

/-- Python `dict` lookup `m.get(k)` over an association list. -/
def lookupAssoc {α : Type} (m : List (String × α)) (k : String) : Option α :=
  (m.find? (fun p => p.1 = k)).map (fun p => p.2)

/-- Model of `by_name = {f["name"]: f for f in fields if f["name"]}`:
entries with an empty full name are skipped, duplicates keep the last
value at the first occurrence's position. -/
def buildByName (es : List FEntry) : List (String × FEntry) :=
  es.foldl (fun m e => if e.fullName = "" then m else updAssoc m e.fullName e) []

/-- Python `dict.setdefault(base, []).append(f)` over an association list:
append to an existing group, or create a new singleton group at the end. -/
def groupAppend (gs : List (String × List FEntry)) (k : String) (e : FEntry) :
    List (String × List FEntry) :=
  if gs.any (fun g => g.1 = k) then
    gs.map (fun g => if g.1 = k then (g.1, g.2 ++ [e]) else g)
  else gs ++ [(k, [e])]

/-- Model of the `short_names_map` construction: each entry with a
non-empty local name (`name_of(f["field"])`) is appended to its local
name's group, groups ordered by first occurrence. -/
def buildShort (es : List FEntry) : List (String × List FEntry) :=
  es.foldl (fun gs e => if e.localName = "" then gs else groupAppend gs e.localName e) []

/-- Model of the per-key resolution loop of `fill_acroform_with_json`
(steps labelled as in the source): (1) `by_name.get(key)`; (2) the exact
local-name group, only when it is a singleton; (3) first full name matching
case-insensitively, in `by_name` order; (4) first local-name group matching
case-insensitively whose group is a singleton; otherwise the key is
skipped (`none`). -/
def resolveKey (es : List FEntry) (key : String) : Option FEntry :=
  match lookupAssoc (buildByName es) key with
  | some f => some f
  | none =>
    match lookupAssoc (buildShort es) key with
    | some [f] => some f
    | _ =>
      match (buildByName es).find? (fun p => pyLower p.1 = pyLower key) with
      | some p => some p.2
      | none =>
        match (buildShort es).find?
            (fun g => pyLower g.1 = pyLower key && g.2.length = 1) with
        | some g => g.2.head?
        | none => none

/-! ## Fillable-field listing (`extract_acroform.write_fillable_list`) -/

/-- Data of one flattened entry as consumed by `write_fillable_list`: the
full name, `to_str(field.get("/FT"))`, and `get_field_flags(field)`. -/
structure FillField where
  name : String
  ft : String
  ff : Nat
deriving DecidableEq, Repr

/-- Model of the loop in `write_fillable_list`: skip empty names,
read-only fields, push-button button fields and signature fields; keep the
full name of everything else, in order. -/
def fillableLines (fields : List FillField) : List String :=
  fields.filterMap (fun f =>
    if f.name = "" then none
    else if isReadOnly f.ff then none
    else if f.ft = "/Btn" && isPushButton f.ff then none
    else if f.ft = "/Sig" then none
    else some f.name)

/-- Model of the written file content: lines joined by a newline with a
trailing newline, or the empty string when no line survives. -/
def fillableContent (fields : List FillField) : String :=
  if fillableLines fields = [] then ""
  else String.intercalate "\n" (fillableLines fields) ++ "\n"

/-! ## The AcroForm field tree and `walk_fields` (`fill_acroform.py`) -/

/-- A node of the AcroForm field tree: its `/Subtype`, `/T`, `/FT` and
`/Kids`.  Widget kids are the kids whose `/Subtype` is `/Widget`. -/
inductive ANode where
  | mk (subtype : Option String) (t : Option String) (ft : Option String)
       (kids : List ANode)

/-- Subtype projection of an `ANode`. -/
def ANode.subtype : ANode → Option String
  | .mk st _ _ _ => st

/-- Local-name (`/T`) projection of an `ANode`. -/
def ANode.t : ANode → Option String
  | .mk _ t _ _ => t

/-- Field-type (`/FT`) projection of an `ANode`. -/
def ANode.ft : ANode → Option String
  | .mk _ _ ft _ => ft

/-- Kids projection of an `ANode`. -/
def ANode.kids : ANode → List ANode
  | .mk _ _ _ ks => ks

/-- Model of `is_widget(obj)`: `to_str(obj.get("/Subtype")) == "/Widget"`. -/
def isWidgetN (n : ANode) : Bool := toStrOpt n.subtype = "/Widget"

/-- Model of the full-name computation at the top of `walk_fields`:
join parent and own name with `.`, or take whichever is non-empty
(`current_name or parent_name`). -/
def joinName (parentName currentName : String) : String :=
  if parentName ≠ "" && currentName ≠ "" then parentName ++ "." ++ currentName
  else if currentName ≠ "" then currentName else parentName

/-- One entry produced by `walk_fields`: the dict
`{"name": full_name, "field": field, "widgets": widgets}`. -/
structure AEntry where
  name : String
  field : ANode
  widgets : List ANode

/-- Model of `walk_fields(field, parent_name)`: kids are partitioned into
widgets and child fields; the child fields are walked first (in kid
order), and the node's own entry is appended afterwards when `/FT` is
present.  Iterating the kids once while skipping widget kids is the same
partition-then-iterate order as the source. -/
def walkFields (f : ANode) (parentName : String) : List AEntry :=
  match f with
  | .mk st t ft kids =>
    let fullName := joinName parentName (toStrOpt t)
    walkKidFields kids fullName ++
      (if ft.isSome then
        [⟨fullName, .mk st t ft kids, kids.filter isWidgetN⟩]
       else [])
where
  /-- The recursion of `walk_fields` over the child-field kids. -/
  walkKidFields : List ANode → String → List AEntry
    | [], _ => []
    | k :: rest, fn =>
      (if isWidgetN k then [] else walkFields k fn) ++ walkKidFields rest fn

/-- Model of `flatten_all_fields(acro_form)`: walk every root field with an
empty parent name and concatenate. -/
def flattenAllFields (rootFields : List ANode) : List AEntry :=
  (rootFields.map (fun f => walkFields f "")).flatten

/-- The number of nodes of the tree that carry a field type (`/FT`),
counting only nodes reachable through non-widget kid edges — the nodes the
spec calls typed (leaf) fields, as opposed to pure containers. -/
def typedCount (f : ANode) : Nat :=
  match f with
  | .mk _ _ ft kids =>
    typedCountKids kids + (if ft.isSome then 1 else 0)
where
  /-- Sum of `typedCount` over the non-widget kids. -/
  typedCountKids : List ANode → Nat
    | [] => 0
    | k :: rest =>
      (if isWidgetN k then 0 else typedCount k) + typedCountKids rest

/-- The full names of the typed nodes of the tree, listed in the order the
amended claim describes: depth-first, with every node's child-field
subtree listed before the node's own name (post-order). -/
def typedNamesPost (f : ANode) (parentName : String) : List String :=
  match f with
  | .mk _ t ft kids =>
    let fullName := joinName parentName (toStrOpt t)
    typedNamesKids kids fullName ++ (if ft.isSome then [fullName] else [])
where
  /-- `typedNamesPost` over the non-widget kids. -/
  typedNamesKids : List ANode → String → List String
    | [], _ => []
    | k :: rest, fn =>
      (if isWidgetN k then [] else typedNamesPost k fn) ++ typedNamesKids rest fn

/-! ## XFA template analysis (`src/xfa_extract.py`) -/

/-- An XML element as lxml hands it back: tag local name (all queries in
the source are namespace-agnostic `{*}` queries), attributes, children and
text. -/
inductive XElem where
  | mk (tag : String) (attrs : List (String × String)) (children : List XElem)
       (text : Option String)

/-- Tag projection. -/
def XElem.tag : XElem → String
  | .mk tg _ _ _ => tg

/-- Attribute list projection. -/
def XElem.attrs : XElem → List (String × String)
  | .mk _ a _ _ => a

/-- Children projection. -/
def XElem.children : XElem → List XElem
  | .mk _ _ cs _ => cs

/-- Text projection. -/
def XElem.text : XElem → Option String
  | .mk _ _ _ tx => tx

/-- Model of `el.get(attr)`. -/
def XElem.attr (e : XElem) (k : String) : Option String :=
  lookupAssoc e.attrs k

/-- Proper descendants of an element in document (pre-) order, as
`el.findall('.//...')` and `el.find('.//...')` enumerate them. -/
def descendantsX : XElem → List XElem
  | .mk _ _ cs _ => descendantsListX cs
where
  /-- Descendant enumeration over a child list. -/
  descendantsListX : List XElem → List XElem
    | [] => []
    | c :: rest => (c :: descendantsX c) ++ descendantsListX rest

/-- The `(name, ref)` pairs contributed by the first loop of
`get_bindings_from_template`: every descendant `field` element with a
non-empty `name` attribute whose first descendant `bind` element carries a
non-empty `ref`. -/
def fieldBindPairs (root : XElem) : List (String × String) :=
  ((descendantsX root).filter (fun el => el.tag = "field")).filterMap
    (fun el =>
      match el.attr "name" with
      | none => none
      | some n =>
        if n = "" then none
        else
          match (descendantsX el).find? (fun b => b.tag = "bind") with
          | none => none
          | some b =>
            match b.attr "ref" with
            | none => none
            | some r => if r = "" then none else some (n, r))

/-- The `(name, ref)` pairs contributed by the second loop of
`get_bindings_from_template`, over `exclGroup` elements. -/
def exclBindPairs (root : XElem) : List (String × String) :=
  ((descendantsX root).filter (fun el => el.tag = "exclGroup")).filterMap
    (fun el =>
      match el.attr "name" with
      | none => none
      | some n =>
        if n = "" then none
        else
          match (descendantsX el).find? (fun b => b.tag = "bind") with
          | none => none
          | some b =>
            match b.attr "ref" with
            | none => none
            | some r => if r = "" then none else some (n, r))

/-- All binding assignments performed by `get_bindings_from_template`, in
execution order: the field loop runs first, the exclusion-group loop
second. -/
def bindingPairs (root : XElem) : List (String × String) :=
  fieldBindPairs root ++ exclBindPairs root

/-- Model of `get_bindings_from_template(xml_bytes)`: the map built by
executing `out[name] = ref` for each pair in order. -/
def getBindingsFromTemplate (root : XElem) : List (String × String) :=
  (bindingPairs root).foldl (fun m p => updAssoc m p.1 p.2) []

/-- The `(fieldName, somPath)` assignment `result.setdefault(...)` of
`get_som_paths_from_template` keeps the first path per name; we model the
map directly as first-wins over the pair list.  Ancestor subform names are
supplied by the caller of the recursion in root-to-leaf order. -/
def somPathPairs (root : XElem) : List (String × String) :=
  somWalk root []
where
  /-- Walk collecting `subform` ancestor names (root-to-leaf) and emitting
  a pair at every named `field` element. -/
  somWalk : XElem → List String → List (String × String)
    | .mk tg attrs cs _, subformNames =>
      let here : List (String × String) :=
        if tg = "field" then
          match lookupAssoc attrs "name" with
          | some n =>
            if n = "" then []
            else [(n, String.intercalate "." (subformNames ++ [n]))]
          | none => []
        else []
      let below :=
        if tg = "subform" then
          match lookupAssoc attrs "name" with
          | some n => if n = "" then subformNames else subformNames ++ [n]
          | none => subformNames
        else subformNames
      here ++ somWalkList cs below
  /-- `somWalk` over a child list. -/
  somWalkList : List XElem → List String → List (String × String)
    | [], _ => []
    | c :: rest, subformNames =>
      somWalk c subformNames ++ somWalkList rest subformNames

/-- Model of `get_som_paths_from_template`: `setdefault` keeps the first
pair per name. -/
def getSomPathsFromTemplate (root : XElem) : List (String × String) :=
  (somPathPairs root).foldl
    (fun m p => if m.any (fun q => q.1 = p.1) then m else m ++ [p]) []

/-! ## Datasets path resolver (`fill_xfa._set_value_by_ref`) -/

/-- Rebuild an element with new children. -/
def XElem.withChildren (e : XElem) (cs : List XElem) : XElem :=
  .mk e.tag e.attrs cs e.text

/-- Rebuild an element with new text. -/
def XElem.withText (e : XElem) (tx : Option String) : XElem :=
  .mk e.tag e.attrs e.children tx

/-- Character-level splitting as `re.split(r"[./]", s)` performs it:
adjacent separators produce empty segments. -/
def splitOnDelims : List Char → List (List Char)
  | [] => [[]]
  | c :: rest =>
    if c = '.' || c = '/' then [] :: splitOnDelims rest
    else
      match splitOnDelims rest with
      | seg :: segs => (c :: seg) :: segs
      | [] => [[c]]

/-- Model of `[p for p in re.split(r"[./]", ref.strip()) if p]`: split the
stripped reference on `.` or `/` and drop the empty segments. -/
def splitRefParts (ref : String) : List String :=
  ((splitOnDelims (pyStrip ref).toList).map String.mk).filter (fun p => p ≠ "")

/-- Character-level model of `re.sub(r"\[.*?\]", "", part)`: every
bracketed group (from a `[` to the nearest following `]`) is removed; a
`[` with no later `]` matches nothing and the remainder is kept verbatim.
The accumulator holds, reversed, the characters read since the pending
unmatched `[`. -/
def stripIdxGo : List Char → Option (List Char) → List Char
  | [], none => []
  | [], some buf => buf.reverse
  | c :: rest, none =>
    if c = '[' then stripIdxGo rest (some [c])
    else c :: stripIdxGo rest none
  | c :: rest, some buf =>
    if c = ']' then stripIdxGo rest none
    else stripIdxGo rest (some (c :: buf))

/-- String-level wrapper: `re.sub(r"\[.*?\]", "", s)`. -/
def stripIdx (s : String) : String := String.mk (stripIdxGo s.toList none)

/-- Python `json.dumps(value, ensure_ascii=False)` for the modelled values
(string escaping is restricted to the quote and backslash characters; the
claims never inspect escape sequences). -/
def jsonQuote (s : String) : String :=
  "\"" ++ String.mk (s.toList.flatMap (fun c =>
    if c = '"' then ['\\', '"']
    else if c = '\\' then ['\\', '\\']
    else [c])) ++ "\""

/-- Recursive part of `json.dumps`. -/
def jsonDumps : PyVal → String
  | .pyStr s => jsonQuote s
  | .pyInt n => toString n
  | .pyBool b => if b then "true" else "false"
  | .pyNone => "null"
  | .pyList l => "[" ++ dumpList l ++ "]"
  | .pyDict d => "\x7b" ++ dumpDict d ++ "\x7d"
where
  /-- Comma-joined dump of a JSON array body. -/
  dumpList : List PyVal → String
    | [] => ""
    | [v] => jsonDumps v
    | v :: rest => jsonDumps v ++ ", " ++ dumpList rest
  /-- Comma-joined dump of a JSON object body. -/
  dumpDict : List (String × PyVal) → String
    | [] => ""
    | [(k, v)] => jsonQuote k ++ ": " ++ jsonDumps v
    | (k, v) :: rest => jsonQuote k ++ ": " ++ jsonDumps v ++ ", " ++ dumpDict rest

/-- The final-value serialization of `_set_value_by_ref`: mappings and
sequences are JSON-serialized, `None` becomes the empty string, scalars
take their Python `str(...)` form. -/
def serializeValue : PyVal → String
  | .pyDict d => jsonDumps (.pyDict d)
  | .pyList l => jsonDumps (.pyList l)
  | .pyNone => ""
  | .pyStr s => s
  | .pyInt n => toString n
  | .pyBool b => if b then "True" else "False"

/-- Child lookup of `_set_value_by_ref`: first a child carrying an
attribute `name` equal to the segment (`./*[@name="..."]`), then a child
whose tag equals the segment (`./name`). -/
def findChildIdx (e : XElem) (n : String) : Option Nat :=
  match e.children.findIdx? (fun c => c.attr "name" = some n) with
  | some i => some i
  | none => e.children.findIdx? (fun c => c.tag = n)

/-- Descend into the child selected by `findChildIdx`, creating a fresh
element (`etree.SubElement(current, name)`, appended at the end) when no
child matches, and rebuild the tree with the transformed child. -/
def applyAtChild (e : XElem) (n : String) (f : XElem → XElem) : XElem :=
  match findChildIdx e n with
  | some i => e.withChildren (e.children.set i (f (e.children.getD i (XElem.mk n [] [] none))))
  | none => e.withChildren (e.children ++ [f (XElem.mk n [] [] none)])

/-- Model of `_set_value_by_ref(data_root, ref, value)`: split the
reference on `.`/`/`, drop empty segments (no-op when none are left),
strip `[...]` index groups from each segment while descending through
existing or freshly created elements, and set the text of the element
reached by the last segment. -/
def setValueByRef (dataRoot : XElem) (ref : String) (value : PyVal) : XElem :=
  let parts := splitRefParts ref
  if parts = [] then dataRoot
  else descend dataRoot parts
where
  /-- Descent over the remaining segments; an exhausted list means the
  current element is the one whose text is assigned. -/
  descend : XElem → List String → XElem
    | e, [] => e.withText (some (serializeValue value))
    | e, p :: rest => applyAtChild e (stripIdx p) (fun c => descend c rest)

/-! ## XFA packet reading and form-type detection
(`src/xfa_extract.read_xfa_packets`, `detect_form_type.detect_form_type`) -/

/-- A PDF object stored in the `/XFA` value: a name or a stream (streams
are the only ones `_obj_to_bytes` reads with `read_bytes`; everything else
falls back to its `str(...)` form). -/
inductive PdfObjM where
  | nameObj (s : String)
  | streamObj (data : String)
deriving DecidableEq, Repr

/-- Model of `_obj_to_bytes(obj)` (bytes modelled as `String`). -/
def objToBytes : PdfObjM → String
  | .nameObj s => s
  | .streamObj d => d

/-- Model of `str(obj)` for the two object kinds we carry. -/
def objStr : PdfObjM → String
  | .nameObj s => s
  | .streamObj d => d

/-- The `/XFA` value: an array of alternating names and streams, or a
single stream object. -/
inductive XfaM where
  | arr (items : List PdfObjM)
  | single (obj : PdfObjM)
deriving DecidableEq, Repr

/-- The `/AcroForm` dictionary, reduced to the `/XFA` key. -/
structure AcroFormM where
  xfa : Option XfaM
deriving DecidableEq, Repr

/-- The states a PDF input can be in, as the two functions distinguish
them: file absent, file readable but without a `/Root` catalog, or a
document whose catalog has an optional `/AcroForm`. -/
inductive PdfFileM where
  | missing
  | noRoot
  | doc (acroForm : Option AcroFormM)
deriving DecidableEq, Repr

/-- A raised Python exception: its class and message (the source message
for a missing file carries the path; we keep the fixed prefix). -/
inductive PyErr where
  | fileNotFoundError (msg : String)
  | valueError (msg : String)
deriving DecidableEq, Repr

/-- Model of `str(name_obj).lstrip("/")`. -/
def lstripSlash (s : String) : String :=
  String.mk (s.toList.dropWhile (fun c => c = '/'))

/-- The `(name, bytes)` pairs read by the loop
`for i in range(0, len(items) - 1, 2)`: consecutive non-overlapping pairs,
a trailing odd element is dropped. -/
def xfaPairsOf : List PdfObjM → List (String × String)
  | a :: b :: rest => (lstripSlash (objStr a), objToBytes b) :: xfaPairsOf rest
  | _ => []

/-- Model of `read_xfa_packets(pdf_path)`: a missing file raises
`FileNotFoundError`; a document without `/Root`, without `/AcroForm`,
without `/XFA`, or yielding no packets raises a `ValueError` with the
corresponding message; otherwise the packet dictionary is returned. -/
def readXfaPackets : PdfFileM → Except PyErr (List (String × String))
  | .missing => .error (.fileNotFoundError "Nie znaleziono pliku")
  | .noRoot =>
    .error (.valueError "PDF nie zawiera katalogu /Root – niepoprawny dokument.")
  | .doc none => .error (.valueError "PDF nie zawiera /AcroForm – brak XFA.")
  | .doc (some af) =>
    match af.xfa with
    | none => .error (.valueError "PDF nie zawiera /XFA – brak pakietów XFA.")
    | some x =>
      let packets :=
        match x with
        | .arr items => (xfaPairsOf items).foldl (fun m p => updAssoc m p.1 p.2) []
        | .single obj => [("xfa", objToBytes obj)]
      if packets = [] then
        .error (.valueError "Nie udało się odczytać żadnych pakietów XFA.")
      else .ok packets

/-- Model of `detect_form_type(pdf_path)`. -/
def detectFormType : PdfFileM → String
  | .missing => "BrakPliku"
  | .noRoot => "NiepoprawnyPDF"
  | .doc none => "BrakFormularza"
  | .doc (some af) =>
    match af.xfa with
    | some _ => "XFA"
    | none => "AcroForm"

/-! ## Theorems -/

/-- Helper: the on-name list returned by `get_appearance_names` is never
empty (both fallbacks produce `["/Yes"]`, and the filtered key list is
replaced by `["/Yes"]` when it filters to nothing). -/
theorem getAppearanceNames_fst_ne_nil : ∀ w : Widget,
    (getAppearanceNames w).1 ≠ []
  | ⟨none, _⟩ => by simp [getAppearanceNames]
  | ⟨some ⟨none⟩, _⟩ => by simp [getAppearanceNames]
  | ⟨some ⟨some names⟩, _⟩ => by
    unfold getAppearanceNames
    by_cases h : names = []
    · simp [h]
    · simp only [h, if_false]
      split <;> split <;> simp_all [List.filter_eq_nil_iff]

/-- Helper: the off-name returned by `get_appearance_names` is always
`"/Off"`. -/
theorem getAppearanceNames_snd : ∀ w : Widget,
    (getAppearanceNames w).2 = "/Off"
  | ⟨none, _⟩ => rfl
  | ⟨some ⟨none⟩, _⟩ => rfl
  | ⟨some ⟨some names⟩, _⟩ => by
    unfold getAppearanceNames
    by_cases h : names = [] <;> simp [h]

/-- Helper: `normalize_on_value` succeeds (no `IndexError`) whenever the
candidate list is non-empty. -/
theorem normalizeOnValue_ok (val : PyVal) (candidates : List String)
    (h : candidates ≠ []) : ∃ o, normalizeOnValue val candidates = .ok o := by
  have hhead : ∃ o, headE candidates = .ok o := by
    cases candidates with
    | nil => exact absurd rfl h
    | cons c rest => exact ⟨some c, rfl⟩
  unfold normalizeOnValue
  cases val with
  | pyBool b => cases b <;> simp [hhead]
  | pyInt n =>
    by_cases hn : n = 0
    · simp [hn]
    · simpa [hn] using hhead
  | pyStr s =>
    by_cases hv : pyStrip s = ""
    · simp [hv]
    · simp only [hv, if_false]
      cases hf : (candidates.find? fun c =>
          pyLower (if (pyStrip s).front ≠ '/' then "/" ++ pyStrip s else pyStrip s) = pyLower c) with
      | some c => exact ⟨some c, by simp [hf]⟩
      | none =>
        simp only [hf]
        by_cases hsyn : (["/yes", "/on", "/true", "/1"].contains
            (pyLower (if (pyStrip s).front ≠ '/' then "/" ++ pyStrip s else pyStrip s))) = true
        · simpa [hsyn] using hhead
        · simp only [hsyn, if_false]
          exact hhead
  | pyNone => exact ⟨none, rfl⟩
  | pyList l => exact ⟨none, rfl⟩
  | pyDict d => exact ⟨none, rfl⟩

/-- Claim C6: `appearanceNames` on a widget whose normal-appearance
dictionary has exactly the keys `Off`, `Yes` returns the on-name list
`["/Yes"]` and off-name `"/Off"`; a widget with no appearance dictionary,
or with no normal sub-dictionary, gets the same synthetic default (names
are written with the PDF name slash, as the source manipulates them). -/
theorem c6_appearance_names :
    getAppearanceNames ⟨some ⟨some ["/Off", "/Yes"]⟩, "/Off"⟩ = (["/Yes"], "/Off") ∧
    getAppearanceNames ⟨none, "/Off"⟩ = (["/Yes"], "/Off") ∧
    getAppearanceNames ⟨some ⟨none⟩, "/Off"⟩ = (["/Yes"], "/Off") := by
  exact ⟨by decide, rfl, rfl⟩

/-- Claim C10: the on-name list of `get_appearance_names` is never empty —
even for an appearance dictionary holding only the `Off` key the result
falls back to `["/Yes"]` — and consequently `set_checkbox_or_radio` never
reaches the `candidates[0]` access with an empty candidate list: it never
raises, on any input. -/
theorem c10_candidates_nonempty_and_apply_total :
    (∀ w : Widget, (getAppearanceNames w).1 ≠ []) ∧
    (getAppearanceNames ⟨some ⟨some ["/Off"]⟩, "/Off"⟩).1 = ["/Yes"] ∧
    (∀ (ff : Nat) (fieldV : String) (widgets : List Widget) (value : PyVal),
      ∃ r, setCheckboxOrRadio ff fieldV widgets value = .ok r) := by
  refine ⟨getAppearanceNames_fst_ne_nil, by decide, ?_⟩
  intro ff fieldV widgets value
  unfold setCheckboxOrRadio
  by_cases hpb : isPushButton ff = true
  · exact ⟨(fieldV, widgets), by simp [hpb]⟩
  · simp only [Bool.not_eq_true] at hpb
    simp only [hpb, Bool.false_eq_true, if_false]
    by_cases hne : (collectAll widgets).1 = []
    · simp only [hne, ne_eq, not_true_eq_false, if_false]
      cases hr : isRadio ff <;> simp [hr]
    · obtain ⟨o, ho⟩ := normalizeOnValue_ok value (collectAll widgets).1 hne
      simp only [ne_eq, hne, not_false_eq_true, if_true, ho]
      cases o with
      | none => cases hr : isRadio ff <;> simp [hr]
      | some s =>
        by_cases hs : s = "" <;> cases hr : isRadio ff <;> simp [hr, hs]

/-- Claim C9: reading XFA packets reports missing file, missing /AcroForm
and missing /XFA as three distinct errors (a `FileNotFoundError` versus two
`ValueError`s with distinct messages), and form-type detection returns five
pairwise distinct results for a missing file, a malformed document without
a root catalog, a document without a form, an AcroForm-only document and an
XFA document. -/
theorem c9_structural_absence_distinct :
    readXfaPackets .missing = .error (.fileNotFoundError "Nie znaleziono pliku") ∧
    readXfaPackets (.doc none) =
      .error (.valueError "PDF nie zawiera /AcroForm – brak XFA.") ∧
    readXfaPackets (.doc (some ⟨none⟩)) =
      .error (.valueError "PDF nie zawiera /XFA – brak pakietów XFA.") ∧
    ([PyErr.fileNotFoundError "Nie znaleziono pliku",
      PyErr.valueError "PDF nie zawiera /AcroForm – brak XFA.",
      PyErr.valueError "PDF nie zawiera /XFA – brak pakietów XFA."].Pairwise
        (fun e1 e2 => e1 ≠ e2)) ∧
    ([detectFormType .missing, detectFormType .noRoot, detectFormType (.doc none),
      detectFormType (.doc (some ⟨none⟩)),
      detectFormType (.doc (some ⟨some (.single (.streamObj "xdp"))⟩))].Pairwise
        (fun r1 r2 => r1 ≠ r2)) := by
  refine ⟨rfl, rfl, rfl, by decide, by decide⟩

/-- Claim C5: `_set_value_by_ref` splits the reference on `.`/`/`, drops
empty segments, strips `[...]` index groups from each segment, creates the
missing elements along the chain (reusing existing ones), and sets the
final element's text to the value's string form; on an empty data root the
reference `a.b[0].c` creates exactly the three-element chain `a`, `b`, `c`
(for `None` the text is the empty string), and a reference with no usable
segment after cleanup is a no-op. -/
theorem c5_set_value_by_ref :
    (∀ v : PyVal, setValueByRef (.mk "data" [] [] none) "a.b[0].c" v =
      .mk "data" [] [.mk "a" [] [.mk "b" [] [.mk "c" [] []
        (some (serializeValue v))] none] none] none) ∧
    (∀ v : PyVal,
      setValueByRef (.mk "data" [] [.mk "a" [] [.mk "x" [] [] none] none] none)
        "a/b" v =
      .mk "data" [] [.mk "a" [] [.mk "x" [] [] none,
        .mk "b" [] [] (some (serializeValue v))] none] none) ∧
    (setValueByRef (.mk "data" [] [] none) "a.b[0].c" .pyNone =
      .mk "data" [] [.mk "a" [] [.mk "b" [] [.mk "c" [] []
        (some "")] none] none] none) ∧
    (∀ (root : XElem) (ref : String) (v : PyVal),
      splitRefParts ref = [] → setValueByRef root ref v = root) := by
  refine ⟨fun v => rfl, fun v => rfl, rfl, fun root ref v h => ?_⟩
  simp [setValueByRef, h]

/-- Witness for C5: the reference `..//.` has no usable segment and the
call leaves the data root untouched. -/
theorem c5_set_value_by_ref_witness :
    splitRefParts "..//." = [] ∧
    setValueByRef (.mk "data" [] [] none) "..//." (.pyStr "x") =
      .mk "data" [] [] none :=
  ⟨by decide, c5_set_value_by_ref.2.2.2 _ _ _ (by decide)⟩

/-- The inclusion condition of `write_fillable_list`, written as one
boolean predicate: non-empty name, not read-only, not a push-button
button field, not a signature field. -/
def fillablePred (f : FillField) : Bool :=
  !(f.name == "") && !isReadOnly f.ff &&
    !(f.ft == "/Btn" && isPushButton f.ff) && !(f.ft == "/Sig")

/-- Helper: one step of the `write_fillable_list` loop agrees with
`fillablePred`. -/
theorem fillable_step (f : FillField) :
    (if f.name = "" then none
     else if isReadOnly f.ff then none
     else if f.ft = "/Btn" && isPushButton f.ff then none
     else if f.ft = "/Sig" then none
     else some f.name) =
    if fillablePred f then some f.name else none := by
  simp only [fillablePred]
  split_ifs <;> simp_all

/-- Claim C8: the fillable-field listing consists of exactly the full
names of the entries that have a non-empty name, are not read-only (flag
bit 0), are not push buttons (button field with flag bit 16) and are not
signature fields, one name per line in table order; in the spec's example
the listing keeps `name.first` and `agree` and drops the push button, the
signature field and the read-only field. -/
theorem c8_fillable_listing :
    (∀ fields : List FillField,
      fillableLines fields = (fields.filter fillablePred).map FillField.name) ∧
    fillableLines [⟨"name.first", "/Tx", 0⟩, ⟨"agree", "/Btn", 0⟩,
      ⟨"submit", "/Btn", 65536⟩, ⟨"sig", "/Sig", 0⟩, ⟨"ro", "/Tx", 1⟩] =
      ["name.first", "agree"] := by
  constructor
  · intro fields
    induction fields with
    | nil => rfl
    | cons f rest ih =>
      have h1 : fillableLines (f :: rest) =
          (if fillablePred f then some f.name else none).toList ++
            fillableLines rest := by
        simp only [fillableLines, List.filterMap_cons, fillable_step f]
        cases h2 : fillablePred f <;> simp
      rw [h1, ih, List.filter_cons]
      cases hp : fillablePred f <;> simp [hp]
  · decide

/-- Helper: a `dict` assignment whose key differs from the head entry
leaves the head in place. -/
theorem updAssoc_cons_ne {α : Type} (p : String × α) (m : List (String × α))
    (k : String) (v : α) (hp : p.1 ≠ k) :
    updAssoc (p :: m) k v = p :: updAssoc m k v := by
  by_cases hm : m.any (fun q => q.1 = k) <;>
    simp [updAssoc, List.any_cons, hp, hm]

/-- Helper: a `dict` assignment whose key matches the head entry replaces
it in place (and any later entry with the same key, which a well-formed
dict does not contain). -/
theorem updAssoc_cons_self {α : Type} (p : String × α) (m : List (String × α))
    (k : String) (v : α) (hp : p.1 = k) :
    updAssoc (p :: m) k v =
      (k, v) :: m.map (fun q => if q.1 = k then (k, v) else q) := by
  simp [updAssoc, List.any_cons, hp]

/-- Helper: lookup skips a head entry with a different key. -/
theorem lookupAssoc_cons_ne {α : Type} (p : String × α) (m : List (String × α))
    (k : String) (hp : p.1 ≠ k) :
    lookupAssoc (p :: m) k = lookupAssoc m k := by
  simp [lookupAssoc, List.find?, hp]

/-- Helper: lookup returns a head entry with the matching key. -/
theorem lookupAssoc_cons_self {α : Type} (p : String × α) (m : List (String × α))
    (k : String) (hp : p.1 = k) :
    lookupAssoc (p :: m) k = some p.2 := by
  simp [lookupAssoc, List.find?, hp]

/-- Helper: replacing the entries keyed `k` does not change lookups at
another key. -/
theorem lookupAssoc_map_upd_ne {α : Type} (m : List (String × α))
    (k k' : String) (v : α) (h : k' ≠ k) :
    lookupAssoc (m.map (fun q => if q.1 = k then (k, v) else q)) k' =
      lookupAssoc m k' := by
  induction m with
  | nil => rfl
  | cons q m ih =>
    by_cases hq : q.1 = k
    · rw [List.map_cons, if_pos hq]
      rw [lookupAssoc_cons_ne _ _ _ (by simpa using Ne.symm h),
        lookupAssoc_cons_ne _ _ _ (by simpa [hq] using Ne.symm h), ih]
    · rw [List.map_cons, if_neg hq]
      by_cases hq' : q.1 = k'
      · rw [lookupAssoc_cons_self _ _ _ hq', lookupAssoc_cons_self _ _ _ hq']
      · rw [lookupAssoc_cons_ne _ _ _ hq', lookupAssoc_cons_ne _ _ _ hq', ih]

/-- Helper: after `m[k] = v`, looking up `k` yields `v`. -/
theorem lookupAssoc_updAssoc_self {α : Type} (m : List (String × α))
    (k : String) (v : α) : lookupAssoc (updAssoc m k v) k = some v := by
  induction m with
  | nil => simp [updAssoc, lookupAssoc, List.find?]
  | cons p m ih =>
    by_cases hp : p.1 = k
    · rw [updAssoc_cons_self _ _ _ _ hp, lookupAssoc_cons_self _ _ _ rfl]
    · rw [updAssoc_cons_ne _ _ _ _ hp, lookupAssoc_cons_ne _ _ _ hp, ih]

/-- Helper: after `m[k] = v`, looking up another key is unchanged. -/
theorem lookupAssoc_updAssoc_ne {α : Type} (m : List (String × α))
    (k k' : String) (v : α) (h : k' ≠ k) :
    lookupAssoc (updAssoc m k v) k' = lookupAssoc m k' := by
  induction m with
  | nil =>
    simp [updAssoc, lookupAssoc, List.find?, Ne.symm h]
  | cons p m ih =>
    by_cases hp : p.1 = k
    · rw [updAssoc_cons_self _ _ _ _ hp,
        lookupAssoc_cons_ne _ _ _ (by simpa using Ne.symm h),
        lookupAssoc_map_upd_ne _ _ _ _ h,
        lookupAssoc_cons_ne _ _ _ (by simp [hp, Ne.symm h])]
    · rw [updAssoc_cons_ne _ _ _ _ hp]
      by_cases hp' : p.1 = k'
      · rw [lookupAssoc_cons_self _ _ _ hp', lookupAssoc_cons_self _ _ _ hp']
      · rw [lookupAssoc_cons_ne _ _ _ hp', lookupAssoc_cons_ne _ _ _ hp', ih]

/-- Helper: `getLast?` of a cons, phrased through `<|>`. -/
theorem getLast?_cons_orElse {α : Type} (a : α) (l : List α) :
    (a :: l).getLast? = (l.getLast? <|> some a) := by
  induction l generalizing a with
  | nil => rfl
  | cons b l ih =>
    rw [List.getLast?_cons_cons, ih b]
    cases hl : l.getLast? <;> simp [ih b, hl]

/-- Helper: folding `dict` assignments over a pair list makes lookup
return the value of the last pair carrying the key, falling back to the
initial dictionary. -/
theorem lookupAssoc_foldl_upd {α : Type} (ps : List (String × α))
    (m : List (String × α)) (k : String) :
    lookupAssoc (ps.foldl (fun m p => updAssoc m p.1 p.2) m) k =
      (((ps.filter (fun p => p.1 = k)).map (fun p => p.2)).getLast? <|>
        lookupAssoc m k) := by
  induction ps generalizing m with
  | nil => simp
  | cons p ps ih =>
    rw [List.foldl_cons, ih]
    by_cases hp : p.1 = k
    · subst hp
      rw [List.filter_cons_of_pos (by simp), List.map_cons,
        getLast?_cons_orElse, lookupAssoc_updAssoc_self]
      cases hps : ((ps.filter (fun q => q.1 = p.1)).map (fun q => q.2)).getLast? <;>
        simp [hps]
    · rw [List.filter_cons_of_neg (by simpa using hp),
        lookupAssoc_updAssoc_ne _ _ _ _ (Ne.symm hp)]

/-- The XML template used to refute the first-wins reading of the
bindings map: two `field` elements named `n`, bound to `r1` and `r2`
respectively, in that document order. -/
def c2Template : XElem :=
  .mk "template" [] [
    .mk "field" [("name", "n")] [.mk "bind" [("ref", "r1")] [] none] none,
    .mk "field" [("name", "n")] [.mk "bind" [("ref", "r2")] [] none] none] none

/-- Claim C2 counterexample: on a template whose name `n` occurs twice
with refs `r1` then `r2`, `get_bindings_from_template` records `r2` — the
ref of the LAST occurrence — so the claimed first-occurrence-wins rule is
false on the code. -/
theorem c2_counterexample :
    getBindingsFromTemplate c2Template = [("n", "r2")] ∧
    lookupAssoc (getBindingsFromTemplate c2Template) "n" ≠ some "r1" := by
  refine ⟨by decide, by decide⟩

/-- Claim C2 (amended): the bindings map records, for each name, the ref
of the LAST binding occurrence in processing order (all `field` elements
in document order, then all `exclGroup` elements in document order);
earlier occurrences are overwritten, not preserved. -/
theorem c2_bindings_last_wins (t : XElem) (n : String) :
    lookupAssoc (getBindingsFromTemplate t) n =
      (((bindingPairs t).filter (fun p => p.1 = n)).map (fun p => p.2)).getLast? := by
  unfold getBindingsFromTemplate
  rw [lookupAssoc_foldl_upd]
  cases h : (((bindingPairs t).filter (fun p => p.1 = n)).map (fun p => p.2)).getLast? <;>
    simp [h, lookupAssoc, List.find?]

/-- The tree used to refute the document-order reading of the flattener: a
typed node `A` (it has `/FT`) with a typed child field `B`. -/
def c3Node : ANode :=
  .mk none (some "A") (some "/Btn") [.mk none (some "B") (some "/Tx") []]

/-- Claim C3 counterexample: on a node that has both a type tag and a
typed child field, `walk_fields` emits the child subtree BEFORE the node's
own entry, so the returned list is not in document order (the parent
appears first in the document). -/
theorem c3_counterexample :
    (walkFields c3Node "").map AEntry.name = ["A.B", "A"] ∧
    (walkFields c3Node "").map AEntry.name ≠ ["A", "A.B"] :=
  ⟨by decide, by decide⟩

mutual

/-- Helper: mutual with `walkKid_names_eq`; the flattener's entry names
are exactly `typedNamesPost`. -/
theorem walkFields_names_eq : ∀ (f : ANode) (pn : String),
    (walkFields f pn).map AEntry.name = typedNamesPost f pn
  | .mk st t ft kids, pn => by
    simp only [walkFields, typedNamesPost, List.map_append]
    rw [walkKid_names_eq kids (joinName pn (toStrOpt t))]
    congr 1
    cases ft <;> simp

/-- Helper: mutual with `walkFields_names_eq`, over a kid list. -/
theorem walkKid_names_eq : ∀ (ks : List ANode) (fn : String),
    (walkFields.walkKidFields ks fn).map AEntry.name =
      typedNamesPost.typedNamesKids ks fn
  | [], _ => rfl
  | k :: rest, fn => by
    simp only [walkFields.walkKidFields, typedNamesPost.typedNamesKids,
      List.map_append]
    rw [walkKid_names_eq rest fn]
    congr 1
    by_cases hw : isWidgetN k
    · simp [hw]
    · simp [hw, walkFields_names_eq k fn]

end

/-- Claim C3 (amended): `flatten` emits exactly one entry per node
carrying a field type and none for pure containers — the entry names are
exactly `typedNamesPost`, which lists one full name per typed node — but
the order is depth-first POST-order: each node's child-field subtree
precedes the node's own entry (no collision detection and no error is
raised; the edge case of a typed node with child fields contributes both
its own entry and its flattened subtree). -/
theorem c3_flatten_postorder :
    (∀ (f : ANode) (pn : String),
      (walkFields f pn).map AEntry.name = typedNamesPost f pn) ∧
    (∀ roots : List ANode,
      (flattenAllFields roots).map AEntry.name =
        (roots.map (fun f => typedNamesPost f "")).flatten) := by
  refine ⟨walkFields_names_eq, ?_⟩
  intro roots
  induction roots with
  | nil => rfl
  | cons f rest ih =>
    simp only [flattenAllFields, List.map_cons, List.flatten_cons,
      List.map_append] at ih ⊢
    rw [walkFields_names_eq f "", ih]

/-- Helper: changing a widget's `/AS` does not change its appearance
dictionary, hence not its on/off names. -/
theorem getAppearanceNames_setAs : ∀ (w : Widget) (x : String),
    getAppearanceNames { w with asName := x } = getAppearanceNames w
  | ⟨_, _⟩, _ => rfl

/-- Helper: the candidate-collection fold only reads each widget's
appearance dictionary, so two widget lists with the same `/AP`s collect
the same candidates. -/
theorem collect_foldl_congr :
    ∀ (ws ws' : List Widget) (acc : List String × String),
    ws.map Widget.ap = ws'.map Widget.ap →
    ws.foldl
      (fun acc w =>
        let onOff := getAppearanceNames w
        let offName := if onOff.2 = "" then acc.2 else onOff.2
        (onOff.1.foldl (fun l n => if l.contains n then l else l ++ [n]) acc.1,
         offName)) acc =
    ws'.foldl
      (fun acc w =>
        let onOff := getAppearanceNames w
        let offName := if onOff.2 = "" then acc.2 else onOff.2
        (onOff.1.foldl (fun l n => if l.contains n then l else l ++ [n]) acc.1,
         offName)) acc := by
  intro ws
  induction ws with
  | nil =>
    intro ws' acc h
    cases ws' with
    | nil => rfl
    | cons w' tl => simp at h
  | cons w ws ih =>
    intro ws' acc h
    cases ws' with
    | nil => simp at h
    | cons w' tl =>
      simp only [List.map_cons, List.cons.injEq] at h
      obtain ⟨hap, htl⟩ := h
      have hg : getAppearanceNames w = getAppearanceNames w' := by
        cases w; cases w'
        simp only [Widget.ap] at hap
        subst hap
        rfl
      simp only [List.foldl_cons]
      rw [hg]
      exact ih tl _ htl

/-- Helper: `collectAll` only reads the appearance dictionaries. -/
theorem collectAll_congr (ws ws' : List Widget)
    (h : ws.map Widget.ap = ws'.map Widget.ap) :
    collectAll ws = collectAll ws' := by
  unfold collectAll
  exact collect_foldl_congr ws ws' _ h

/-- Helper: an `/AS` update leaves `/AP` unchanged, at the list level. -/
theorem map_ap_map_setAs (ws : List Widget) (g : Widget → String) :
    (ws.map (fun w => { w with asName := g w })).map Widget.ap =
      ws.map Widget.ap := by
  rw [List.map_map]
  apply List.map_congr_left
  intro w _
  cases w
  rfl

/-- Helper: applying an AP-determined AS-update twice equals applying it
once. -/
theorem map_setAs_idem (l : List Widget) (g : Widget → String)
    (hg : ∀ (a : Option APDict) (x y : String), g ⟨a, x⟩ = g ⟨a, y⟩) :
    (l.map (fun w => { w with asName := g w })).map
        (fun w => { w with asName := g w }) =
      l.map (fun w => { w with asName := g w }) := by
  rw [List.map_map]
  apply List.map_congr_left
  intro w _
  cases w with
  | mk a s => exact congrArg (fun y => Widget.mk a y) (hg a _ s)

/-- The four result shapes of `set_checkbox_or_radio` past the push-button
guard, indexed by the radio flag and the normalization outcome; used to
state the characterization lemma `setCheckboxOrRadio_char`. -/
def applyOutcome (ws : List Widget) (radio : Bool) (selOn : Option String) :
    Except String (String × List Widget) :=
  if radio then
    match selOn with
    | some sel =>
      if sel = "" then
        .ok ((collectAll ws).2,
          ws.map (fun w => { w with asName := (collectAll ws).2 }))
      else
        .ok (sel, ws.map (fun w =>
          { w with asName :=
              if (getAppearanceNames w).1.contains sel then sel
              else (getAppearanceNames w).2 }))
    | none =>
      .ok ((collectAll ws).2,
        ws.map (fun w => { w with asName := (collectAll ws).2 }))
  else
    match selOn with
    | some sel =>
      if sel = "" then
        .ok ((collectAll ws).2,
          ws.map (fun w => { w with asName := (collectAll ws).2 }))
      else
        .ok (sel, ws.map (fun w =>
          { w with asName :=
              match (getAppearanceNames w).1 with
              | [] => "/Yes"
              | o :: _ => o }))
    | none =>
      .ok ((collectAll ws).2,
        ws.map (fun w => { w with asName := (collectAll ws).2 }))

/-- Helper: once the push-button case is excluded and the normalization
outcome is known, `set_checkbox_or_radio` computes `applyOutcome`. -/
theorem setCheckboxOrRadio_char (ff : Nat) (v : String) (ws : List Widget)
    (val : PyVal) (selOn : Option String)
    (hpb : isPushButton ff = false)
    (hE : (if (collectAll ws).1 ≠ [] then normalizeOnValue val (collectAll ws).1
           else (Except.ok none : Except String (Option String))) = .ok selOn) :
    setCheckboxOrRadio ff v ws val = applyOutcome ws (isRadio ff) selOn := by
  unfold setCheckboxOrRadio applyOutcome
  simp only [hpb, Bool.false_eq_true, if_false]
  rw [hE]

/-- Helper: the value of the selection expression of
`set_checkbox_or_radio` always exists. -/
theorem selE_exists (ws : List Widget) (val : PyVal) :
    ∃ o, (if (collectAll ws).1 ≠ [] then normalizeOnValue val (collectAll ws).1
          else (Except.ok none : Except String (Option String))) = .ok o := by
  by_cases hne : (collectAll ws).1 = []
  · exact ⟨none, by simp [hne]⟩
  · obtain ⟨o, ho⟩ := normalizeOnValue_ok val _ hne
    exact ⟨o, by simp [hne, ho]⟩

/-- Helper: an empty normalization outcome (or an empty-string name, falsy
in Python) takes the off branch in both the radio and checkbox cases. -/
theorem applyOutcome_off (ws : List Widget) (radio : Bool)
    (selOn : Option String) (hoff : selOn = none ∨ selOn = some "") :
    applyOutcome ws radio selOn =
      .ok ((collectAll ws).2,
        ws.map (fun w => { w with asName := (collectAll ws).2 })) := by
  rcases hoff with rfl | rfl <;> cases radio <;> simp [applyOutcome]

/-- Helper: the radio branch on a selected non-empty on-name. -/
theorem applyOutcome_radio_sel (ws : List Widget) (sel : String)
    (hs : sel ≠ "") :
    applyOutcome ws true (some sel) =
      .ok (sel, ws.map (fun w =>
        { w with asName :=
            if (getAppearanceNames w).1.contains sel then sel
            else (getAppearanceNames w).2 })) := by
  simp [applyOutcome, hs]

/-- Helper: the checkbox branch on a selected non-empty on-name. -/
theorem applyOutcome_cb_sel (ws : List Widget) (sel : String)
    (hs : sel ≠ "") :
    applyOutcome ws false (some sel) =
      .ok (sel, ws.map (fun w =>
        { w with asName :=
            match (getAppearanceNames w).1 with
            | [] => "/Yes"
            | o :: _ => o })) := by
  simp [applyOutcome, hs]

/-- Helper: `set_checkbox_or_radio` is idempotent: a successful
application re-applied with the same value reproduces the same stored
value and the same widget states. -/
theorem setCheckboxOrRadio_idem (ff : Nat) (v0 : String) (ws : List Widget)
    (val : PyVal) (v1 : String) (ws1 : List Widget)
    (h : setCheckboxOrRadio ff v0 ws val = .ok (v1, ws1)) :
    setCheckboxOrRadio ff v1 ws1 val = .ok (v1, ws1) := by
  by_cases hpb : isPushButton ff = true
  · unfold setCheckboxOrRadio at h ⊢
    simp only [hpb, if_true] at h ⊢
  · simp only [Bool.not_eq_true] at hpb
    obtain ⟨selOn, hE⟩ := selE_exists ws val
    rw [setCheckboxOrRadio_char ff v0 ws val selOn hpb hE] at h
    have hcases : selOn = none ∨ selOn = some "" ∨
        ∃ sel, selOn = some sel ∧ sel ≠ "" := by
      cases selOn with
      | none => exact Or.inl rfl
      | some s =>
        by_cases hs : s = ""
        · exact Or.inr (Or.inl (by rw [hs]))
        · exact Or.inr (Or.inr ⟨s, rfl, hs⟩)
    rcases hcases with h0 | h0 | ⟨sel, h0, hs⟩
    all_goals subst h0
    · rw [applyOutcome_off ws (isRadio ff) none (Or.inl rfl)] at h
      simp only [Except.ok.injEq, Prod.mk.injEq] at h
      obtain ⟨hv, hw⟩ := h
      subst hv
      subst hw
      have hc : collectAll (ws.map (fun w =>
          { w with asName := (collectAll ws).2 })) = collectAll ws :=
        collectAll_congr _ _ (map_ap_map_setAs ws (fun _ => (collectAll ws).2))
      rw [setCheckboxOrRadio_char ff _ _ val none hpb (by rw [hc]; exact hE)]
      rw [applyOutcome_off _ (isRadio ff) none (Or.inl rfl), hc]
      exact congrArg (fun l => Except.ok ((collectAll ws).2, l))
        (map_setAs_idem ws _ (fun a x y => rfl))
    · rw [applyOutcome_off ws (isRadio ff) (some "") (Or.inr rfl)] at h
      simp only [Except.ok.injEq, Prod.mk.injEq] at h
      obtain ⟨hv, hw⟩ := h
      subst hv
      subst hw
      have hc : collectAll (ws.map (fun w =>
          { w with asName := (collectAll ws).2 })) = collectAll ws :=
        collectAll_congr _ _ (map_ap_map_setAs ws (fun _ => (collectAll ws).2))
      rw [setCheckboxOrRadio_char ff _ _ val (some "") hpb (by rw [hc]; exact hE)]
      rw [applyOutcome_off _ (isRadio ff) (some "") (Or.inr rfl), hc]
      exact congrArg (fun l => Except.ok ((collectAll ws).2, l))
        (map_setAs_idem ws _ (fun a x y => rfl))
    · cases hri : isRadio ff
      · rw [hri, applyOutcome_cb_sel ws sel hs] at h
        simp only [Except.ok.injEq, Prod.mk.injEq] at h
        obtain ⟨hv, hw⟩ := h
        subst hv
        subst hw
        have hc : collectAll (ws.map (fun w =>
            { w with asName := match (getAppearanceNames w).1 with
                               | [] => "/Yes"
                               | o :: _ => o })) = collectAll ws :=
          collectAll_congr _ _ (map_ap_map_setAs ws
            (fun w => match (getAppearanceNames w).1 with
                      | [] => "/Yes"
                      | o :: _ => o))
        rw [setCheckboxOrRadio_char ff _ _ val (some sel) hpb
          (by rw [hc]; exact hE), hri, applyOutcome_cb_sel _ sel hs]
        exact congrArg (fun l => Except.ok (sel, l))
          (map_setAs_idem ws _ (fun a x y => rfl))
      · rw [hri, applyOutcome_radio_sel ws sel hs] at h
        simp only [Except.ok.injEq, Prod.mk.injEq] at h
        obtain ⟨hv, hw⟩ := h
        subst hv
        subst hw
        have hc : collectAll (ws.map (fun w =>
            { w with asName := if (getAppearanceNames w).1.contains sel then sel
                               else (getAppearanceNames w).2 })) = collectAll ws :=
          collectAll_congr _ _ (map_ap_map_setAs ws
            (fun w => if (getAppearanceNames w).1.contains sel then sel
                      else (getAppearanceNames w).2))
        rw [setCheckboxOrRadio_char ff _ _ val (some sel) hpb
          (by rw [hc]; exact hE), hri, applyOutcome_radio_sel _ sel hs]
        exact congrArg (fun l => Except.ok (sel, l))
          (map_setAs_idem ws _ (fun a x y => rfl))

/-- Helper: the off-name accumulated by the collection loop is always
`"/Off"` (every widget reports off-name `"/Off"`). -/
theorem collect_foldl_snd : ∀ (ws : List Widget) (acc : List String × String),
    acc.2 = "/Off" →
    (ws.foldl
      (fun acc w =>
        let onOff := getAppearanceNames w
        let offName := if onOff.2 = "" then acc.2 else onOff.2
        (onOff.1.foldl (fun l n => if l.contains n then l else l ++ [n]) acc.1,
         offName)) acc).2 = "/Off" := by
  intro ws
  induction ws with
  | nil => intro acc h; exact h
  | cons w ws ih =>
    intro acc h
    simp only [List.foldl_cons]
    apply ih
    simp only [getAppearanceNames_snd w]
    simp [h]

/-- Helper: `all_on_names` collection always reports off-name `"/Off"`. -/
theorem collectAll_snd (ws : List Widget) : (collectAll ws).2 = "/Off" := by
  unfold collectAll
  exact collect_foldl_snd ws _ rfl

/-- Helper: membership in the deduplicating inner fold. -/
theorem dedup_foldl_mem : ∀ (ons l : List String) (n : String),
    n ∈ ons.foldl (fun l n => if l.contains n then l else l ++ [n]) l →
    n ∈ l ∨ n ∈ ons := by
  intro ons
  induction ons with
  | nil => intro l n h; exact Or.inl h
  | cons o ons ih =>
    intro l n h
    rcases ih _ n h with h1 | h1
    · beta_reduce at h1
      by_cases hc : l.contains o = true
      · rw [if_pos hc] at h1
        exact Or.inl h1
      · rw [if_neg hc] at h1
        rcases List.mem_append.1 h1 with h2 | h2
        · exact Or.inl h2
        · simp only [List.mem_singleton] at h2
          exact Or.inr (h2 ▸ List.mem_cons_self o ons)
    · exact Or.inr (List.mem_cons_of_mem o h1)

/-- Helper: every collected candidate on-name comes from some widget's
on-name list. -/
theorem collectAll_fst_mem : ∀ (ws : List Widget) (acc : List String × String)
    (n : String),
    n ∈ (ws.foldl
      (fun acc w =>
        let onOff := getAppearanceNames w
        let offName := if onOff.2 = "" then acc.2 else onOff.2
        (onOff.1.foldl (fun l n => if l.contains n then l else l ++ [n]) acc.1,
         offName)) acc).1 →
    n ∈ acc.1 ∨ ∃ w ∈ ws, n ∈ (getAppearanceNames w).1 := by
  intro ws
  induction ws with
  | nil => intro acc n h; exact Or.inl h
  | cons w ws ih =>
    intro acc n h
    simp only [List.foldl_cons] at h
    rcases ih _ n h with h1 | ⟨w', hw', hn⟩
    · rcases dedup_foldl_mem _ _ _ h1 with h2 | h2
      · exact Or.inl h2
      · exact Or.inr ⟨w, List.mem_cons_self w ws, h2⟩
    · exact Or.inr ⟨w', List.mem_cons_of_mem w hw', hn⟩

/-- Helper: no on-name list ever contains the off-name `"/Off"`. -/
theorem onNames_ne_off : ∀ (w : Widget) (n : String),
    n ∈ (getAppearanceNames w).1 → n ≠ "/Off"
  | ⟨none, _⟩, n => by
    intro h
    simp [getAppearanceNames] at h
    simp [h]
  | ⟨some ⟨none⟩, _⟩, n => by
    intro h
    simp [getAppearanceNames] at h
    simp [h]
  | ⟨some ⟨some names⟩, _⟩, n => by
    intro h
    unfold getAppearanceNames at h
    by_cases hn : names = []
    · simp [hn] at h
      simp [h]
    · simp only [hn, if_false, ite_self] at h
      split at h
      · simp only [List.mem_singleton] at h
        simp [h]
      · have := List.of_mem_filter h
        simpa using this

/-- Helper: a name selected by `normalize_on_value` is one of the
candidates. -/
theorem headE_mem (cs : List String) (X : String)
    (h : headE cs = .ok (some X)) : X ∈ cs := by
  cases cs with
  | nil => exact absurd h (by simp [headE])
  | cons c rest =>
    have hc : c = X := by simpa [headE] using h
    exact hc ▸ List.mem_cons_self c rest

/-- Helper: `normalize_on_value` only ever selects a candidate. -/
theorem normalizeOnValue_mem (val : PyVal) (cs : List String) (X : String)
    (h : normalizeOnValue val cs = .ok (some X)) : X ∈ cs := by
  cases val with
  | pyBool b =>
    cases b
    · exact absurd h (by simp [normalizeOnValue])
    · exact headE_mem cs X (by simpa [normalizeOnValue] using h)
  | pyInt n =>
    by_cases hn : n = 0
    · exact absurd h (by simp [normalizeOnValue, hn])
    · exact headE_mem cs X (by simpa [normalizeOnValue, hn] using h)
  | pyStr s =>
    unfold normalizeOnValue at h
    by_cases hv : pyStrip s = ""
    · simp [hv] at h
    · simp only [hv, if_false] at h
      cases hf : cs.find? (fun c =>
          pyLower (if (pyStrip s).front ≠ '/' then "/" ++ pyStrip s else pyStrip s) =
            pyLower c) with
      | some c =>
        rw [hf] at h
        simp only [Except.ok.injEq, Option.some.injEq] at h
        exact h ▸ List.mem_of_find?_eq_some hf
      | none =>
        rw [hf] at h
        by_cases hsyn : (["/yes", "/on", "/true", "/1"].contains
            (pyLower (if (pyStrip s).front ≠ '/' then "/" ++ pyStrip s
              else pyStrip s))) = true
        · exact headE_mem cs X (by simpa [hsyn] using h)
        · simp only [Bool.not_eq_true] at hsyn
          exact headE_mem cs X (by simpa [hsyn] using h)
  | pyNone => exact absurd h (by simp [normalizeOnValue])
  | pyList l => exact absurd h (by simp [normalizeOnValue])
  | pyDict d => exact absurd h (by simp [normalizeOnValue])

/-- Claim C4 (amended): for a radio-subtype button field (not a push
button), when the applied value normalizes to an on-name `X` (non-empty,
Python-truthy), the stored value becomes `X`, every owned widget whose own
candidate set contains `X` displays `X`, and every other widget displays
its own off-name (always `"/Off"`, which `X` never equals) — hence the
number of widgets displaying `X` equals the number of widgets whose
candidate set contains `X` (exactly one when the candidate sets are
disjoint, but possibly more, see the counterexample); when no on-name is
selected, the stored value and every widget's state are set to the
off-name. -/
theorem c4_radio_apply (ff : Nat) (v0 : String) (ws : List Widget)
    (val : PyVal)
    (hpb : isPushButton ff = false) (hrd : isRadio ff = true) :
    (∀ X, X ≠ "" →
      (if (collectAll ws).1 ≠ [] then normalizeOnValue val (collectAll ws).1
       else (Except.ok none : Except String (Option String))) = .ok (some X) →
      setCheckboxOrRadio ff v0 ws val =
        .ok (X, ws.map (fun w =>
          { w with asName := if (getAppearanceNames w).1.contains X then X
                             else (getAppearanceNames w).2 })) ∧
      X ≠ "/Off" ∧
      ((ws.map (fun w =>
          { w with asName := if (getAppearanceNames w).1.contains X then X
                             else (getAppearanceNames w).2 })).filter
          (fun w => w.asName = X)).length =
        (ws.filter (fun w => (getAppearanceNames w).1.contains X)).length) ∧
    ((if (collectAll ws).1 ≠ [] then normalizeOnValue val (collectAll ws).1
      else (Except.ok none : Except String (Option String))) = .ok none →
      setCheckboxOrRadio ff v0 ws val =
        .ok ("/Off", ws.map (fun w => { w with asName := "/Off" }))) := by
  constructor
  · intro X hX hsel
    have hXoff : X ≠ "/Off" := by
      by_cases hne : (collectAll ws).1 = []
      · rw [if_neg (by simpa using hne)] at hsel
        exact absurd hsel (by simp)
      · rw [if_pos hne] at hsel
        have hmem := normalizeOnValue_mem val _ X hsel
        unfold collectAll at hmem
        rcases collectAll_fst_mem ws ([], "/Off") X hmem with h0 | ⟨w, _, hn⟩
        · simp at h0
        · exact onNames_ne_off w X hn
    refine ⟨?_, hXoff, ?_⟩
    · rw [setCheckboxOrRadio_char ff v0 ws val (some X) hpb hsel, hrd,
        applyOutcome_radio_sel ws X hX]
    · rw [List.filter_map, List.length_map]
      apply congrArg List.length
      apply List.filter_congr
      intro w hw
      by_cases hc : (getAppearanceNames w).1.contains X = true
      · simp only [Function.comp_apply, hc, if_true]
        simp
      · have hcf : (getAppearanceNames w).1.contains X = false := by
          simpa using hc
        simp only [Function.comp_apply, hcf, Bool.false_eq_true, if_false]
        simp [getAppearanceNames_snd w, Ne.symm hXoff]
  · intro hsel
    rw [setCheckboxOrRadio_char ff v0 ws val none hpb hsel, hrd,
      applyOutcome_off ws true none (Or.inl rfl), collectAll_snd]

/-- Claim C4 counterexample: a radio field owning two widgets that share
the on-name `/A` ends with BOTH widgets displaying `/A` after applying the
value `A`, so "exactly one widget in the group shows state X" is false on
the code. -/
theorem c4_counterexample :
    setCheckboxOrRadio 32768 ""
        [⟨some ⟨some ["/Off", "/A"]⟩, ""⟩, ⟨some ⟨some ["/Off", "/A"]⟩, ""⟩]
        (.pyStr "A") =
      .ok ("/A", [⟨some ⟨some ["/Off", "/A"]⟩, "/A"⟩,
        ⟨some ⟨some ["/Off", "/A"]⟩, "/A"⟩]) ∧
    ¬ (([(⟨some ⟨some ["/Off", "/A"]⟩, "/A"⟩ : Widget),
        ⟨some ⟨some ["/Off", "/A"]⟩, "/A"⟩].filter
        (fun w => w.asName = "/A")).length = 1) ∧
    isRadio 32768 = true ∧ isPushButton 32768 = false := by
  refine ⟨by rfl, by decide, by decide, by decide⟩

/-- Witness for C4 on a well-formed two-widget radio group with distinct
on-names `/A` and `/B`: applying `A` stores `/A`, displays `/A` on the
first widget and `/Off` on the second, and exactly one widget shows
`/A`. -/
theorem c4_radio_apply_witness :
    setCheckboxOrRadio 32768 ""
        [⟨some ⟨some ["/Off", "/A"]⟩, ""⟩, ⟨some ⟨some ["/Off", "/B"]⟩, ""⟩]
        (.pyStr "A") =
      .ok ("/A", [⟨some ⟨some ["/Off", "/A"]⟩, "/A"⟩,
        ⟨some ⟨some ["/Off", "/B"]⟩, "/Off"⟩]) ∧
    ([(⟨some ⟨some ["/Off", "/A"]⟩, "/A"⟩ : Widget),
      ⟨some ⟨some ["/Off", "/B"]⟩, "/Off"⟩].filter
      (fun w => w.asName = "/A")).length = 1 := by
  have h := (c4_radio_apply 32768 ""
    [⟨some ⟨some ["/Off", "/A"]⟩, ""⟩, ⟨some ⟨some ["/Off", "/B"]⟩, ""⟩]
    (.pyStr "A") (by decide) (by decide)).1 "/A" (by decide) (by rfl)
  exact ⟨h.1.trans (by rfl), by decide⟩

/-- Claim C7: for a checkbox-subtype button field (bit 16 and bit 15 both
clear) and any truthy value, applying the value twice in succession yields
the same stored field value and the same displayed state on every widget
as applying it once. -/
theorem c7_checkbox_idempotent (ff : Nat) (v0 : String) (ws : List Widget)
    (val : PyVal) (v1 : String) (ws1 : List Widget)
    (_hpb : isPushButton ff = false) (_hrd : isRadio ff = false)
    (_htr : pyTruthy val = true)
    (h : setCheckboxOrRadio ff v0 ws val = .ok (v1, ws1)) :
    setCheckboxOrRadio ff v1 ws1 val = .ok (v1, ws1) :=
  setCheckboxOrRadio_idem ff v0 ws val v1 ws1 h

/-- Witness for C7: a single checkbox widget with appearance keys
`/Off`, `/Yes`; applying `True` once stores `/Yes`, and re-applying it
reproduces the same state. -/
theorem c7_checkbox_idempotent_witness :
    isPushButton 0 = false ∧ isRadio 0 = false ∧
    pyTruthy (.pyBool true) = true ∧
    setCheckboxOrRadio 0 "" [⟨some ⟨some ["/Off", "/Yes"]⟩, ""⟩]
      (.pyBool true) =
      .ok ("/Yes", [⟨some ⟨some ["/Off", "/Yes"]⟩, "/Yes"⟩]) ∧
    setCheckboxOrRadio 0 "/Yes" [⟨some ⟨some ["/Off", "/Yes"]⟩, "/Yes"⟩]
      (.pyBool true) =
      .ok ("/Yes", [⟨some ⟨some ["/Off", "/Yes"]⟩, "/Yes"⟩]) :=
  ⟨rfl, rfl, rfl, by rfl,
    c7_checkbox_idempotent 0 "" [⟨some ⟨some ["/Off", "/Yes"]⟩, ""⟩]
      (.pyBool true) "/Yes" [⟨some ⟨some ["/Off", "/Yes"]⟩, "/Yes"⟩]
      (by decide) (by decide) (by decide) (by rfl)⟩

/-- The `(fullName, entry)` pairs inserted into `by_name`, in table
order. -/
def fullPairs (es : List FEntry) : List (String × FEntry) :=
  es.filterMap (fun e => if e.fullName = "" then none else some (e.fullName, e))

/-- The `(localName, entry)` pairs appended into `short_names_map`, in
table order. -/
def shortPairs (es : List FEntry) : List (String × FEntry) :=
  es.filterMap (fun e => if e.localName = "" then none else some (e.localName, e))

/-- Helper: one step of `fullPairs`. -/
theorem fullPairs_cons (e : FEntry) (es : List FEntry) :
    fullPairs (e :: es) =
      if e.fullName = "" then fullPairs es else (e.fullName, e) :: fullPairs es := by
  unfold fullPairs
  rw [List.filterMap_cons]
  by_cases he : e.fullName = "" <;> simp [he]

/-- Helper: one step of `shortPairs`. -/
theorem shortPairs_cons (e : FEntry) (es : List FEntry) :
    shortPairs (e :: es) =
      if e.localName = "" then shortPairs es else (e.localName, e) :: shortPairs es := by
  unfold shortPairs
  rw [List.filterMap_cons]
  by_cases he : e.localName = "" <;> simp [he]

/-- Helper: `by_name` construction is the fold of `dict` assignments over
`fullPairs`. -/
theorem buildByName_eq_pairs : ∀ (es : List FEntry) (m : List (String × FEntry)),
    es.foldl (fun m e => if e.fullName = "" then m else updAssoc m e.fullName e) m =
      (fullPairs es).foldl (fun m p => updAssoc m p.1 p.2) m := by
  intro es
  induction es with
  | nil => intro m; rfl
  | cons e es ih =>
    intro m
    rw [List.foldl_cons, fullPairs_cons]
    by_cases he : e.fullName = ""
    · rw [if_pos he, if_pos he]
      exact ih m
    · rw [if_neg he, if_neg he, List.foldl_cons]
      exact ih (updAssoc m e.fullName e)

/-- Helper: filtering `fullPairs` at a non-empty key projects to filtering
the table on the full name. -/
theorem fullPairs_filter (es : List FEntry) (key : String) (hk : key ≠ "") :
    ((fullPairs es).filter (fun p => p.1 = key)).map (fun p => p.2) =
      es.filter (fun e => e.fullName = key) := by
  induction es with
  | nil => rfl
  | cons e es ih =>
    rw [fullPairs_cons]
    by_cases he : e.fullName = ""
    · rw [if_pos he]
      rw [List.filter_cons_of_neg (by simp [he, Ne.symm hk])]
      exact ih
    · rw [if_neg he]
      by_cases hek : e.fullName = key
      · rw [List.filter_cons_of_pos (by simpa using hek),
          List.filter_cons_of_pos (by simpa using hek), List.map_cons, ih]
      · rw [List.filter_cons_of_neg (by simpa using hek),
          List.filter_cons_of_neg (by simpa using hek), ih]

/-- Helper: every pair key in `fullPairs` is the entry's non-empty full
name. -/
theorem fullPairs_key (es : List FEntry) (p : String × FEntry)
    (hp : p ∈ fullPairs es) : p.2 ∈ es ∧ p.1 = p.2.fullName ∧ p.1 ≠ "" := by
  unfold fullPairs at hp
  rw [List.mem_filterMap] at hp
  obtain ⟨e, he, hfe⟩ := hp
  by_cases h0 : e.fullName = ""
  · rw [if_pos h0] at hfe
    exact absurd hfe (by simp)
  · rw [if_neg h0] at hfe
    have hpe : (e.fullName, e) = p := Option.some.inj hfe
    subst hpe
    exact ⟨he, rfl, h0⟩

/-- Helper: the `by_name` dictionary lookup returns the LAST entry of the
table bearing the (non-empty) full name, and nothing for the empty key. -/
theorem buildByName_lookup (es : List FEntry) (key : String) :
    lookupAssoc (buildByName es) key =
      if key = "" then none
      else (es.filter (fun e => e.fullName = key)).getLast? := by
  unfold buildByName
  rw [buildByName_eq_pairs es [], lookupAssoc_foldl_upd]
  by_cases hk : key = ""
  · rw [if_pos hk]
    have hnil : (fullPairs es).filter (fun p => p.1 = key) = [] := by
      rw [List.filter_eq_nil_iff]
      intro p hp
      have := (fullPairs_key es p hp).2.2
      simp [hk, this]
    rw [hnil]
    simp [lookupAssoc, List.find?]
  · rw [if_neg hk, fullPairs_filter es key hk]
    cases h : (es.filter (fun e => e.fullName = key)).getLast? <;>
      simp [h, lookupAssoc, List.find?]

/-- Helper: a group append whose key differs from the head group leaves
the head in place. -/
theorem groupAppend_cons_ne (g : String × List FEntry)
    (gs : List (String × List FEntry)) (k : String) (e : FEntry)
    (h : g.1 ≠ k) : groupAppend (g :: gs) k e = g :: groupAppend gs k e := by
  by_cases hm : gs.any (fun q => q.1 = k) <;>
    simp [groupAppend, List.any_cons, h, hm]

/-- Helper: a group append whose key matches the head group appends to
it. -/
theorem groupAppend_cons_self (g : String × List FEntry)
    (gs : List (String × List FEntry)) (k : String) (e : FEntry)
    (h : g.1 = k) :
    groupAppend (g :: gs) k e =
      (g.1, g.2 ++ [e]) ::
        gs.map (fun q => if q.1 = k then (q.1, q.2 ++ [e]) else q) := by
  simp [groupAppend, List.any_cons, h]

/-- Helper: appending into groups keyed `k` does not change lookups at
another key. -/
theorem lookupAssoc_map_groupUpd_ne (gs : List (String × List FEntry))
    (k k' : String) (e : FEntry) (h : k' ≠ k) :
    lookupAssoc (gs.map (fun q => if q.1 = k then (q.1, q.2 ++ [e]) else q)) k' =
      lookupAssoc gs k' := by
  induction gs with
  | nil => rfl
  | cons q gs ih =>
    by_cases hq : q.1 = k
    · rw [List.map_cons, if_pos hq]
      have hne : q.1 ≠ k' := by rw [hq]; exact Ne.symm h
      rw [lookupAssoc_cons_ne (q.1, q.2 ++ [e]) _ _ hne,
        lookupAssoc_cons_ne _ _ _ hne, ih]
    · rw [List.map_cons, if_neg hq]
      by_cases hq' : q.1 = k'
      · rw [lookupAssoc_cons_self _ _ _ hq', lookupAssoc_cons_self _ _ _ hq']
      · rw [lookupAssoc_cons_ne _ _ _ hq', lookupAssoc_cons_ne _ _ _ hq', ih]

/-- Helper: after `setdefault(k, []).append(e)`, looking up `k` yields the
old group extended by `e`. -/
theorem lookupAssoc_groupAppend_self (gs : List (String × List FEntry))
    (k : String) (e : FEntry) :
    lookupAssoc (groupAppend gs k e) k =
      some ((lookupAssoc gs k).getD [] ++ [e]) := by
  induction gs with
  | nil => simp [groupAppend, lookupAssoc, List.find?]
  | cons g gs ih =>
    by_cases hg : g.1 = k
    · rw [groupAppend_cons_self g gs k e hg,
        lookupAssoc_cons_self _ _ _ hg,
        lookupAssoc_cons_self ((g.1, g.2 ++ [e])) _ _ hg]
      rfl
    · rw [groupAppend_cons_ne g gs k e hg, lookupAssoc_cons_ne _ _ _ hg,
        lookupAssoc_cons_ne _ _ _ hg, ih]

/-- Helper: after `setdefault(k, []).append(e)`, looking up another key is
unchanged. -/
theorem lookupAssoc_groupAppend_ne (gs : List (String × List FEntry))
    (k k' : String) (e : FEntry) (h : k' ≠ k) :
    lookupAssoc (groupAppend gs k e) k' = lookupAssoc gs k' := by
  induction gs with
  | nil => simp [groupAppend, lookupAssoc, List.find?, Ne.symm h]
  | cons g gs ih =>
    by_cases hg : g.1 = k
    · rw [groupAppend_cons_self g gs k e hg]
      have hne : g.1 ≠ k' := by rw [hg]; exact Ne.symm h
      rw [lookupAssoc_cons_ne (g.1, g.2 ++ [e]) _ _ hne,
        lookupAssoc_map_groupUpd_ne gs k k' e h,
        lookupAssoc_cons_ne _ _ _ hne]
    · rw [groupAppend_cons_ne g gs k e hg]
      by_cases hg' : g.1 = k'
      · rw [lookupAssoc_cons_self _ _ _ hg', lookupAssoc_cons_self _ _ _ hg']
      · rw [lookupAssoc_cons_ne _ _ _ hg', lookupAssoc_cons_ne _ _ _ hg', ih]

/-- Helper: `short_names_map` construction is the fold of group appends
over `shortPairs`. -/
theorem buildShort_eq_pairs : ∀ (es : List FEntry)
    (gs : List (String × List FEntry)),
    es.foldl (fun gs e =>
        if e.localName = "" then gs else groupAppend gs e.localName e) gs =
      (shortPairs es).foldl (fun gs p => groupAppend gs p.1 p.2) gs := by
  intro es
  induction es with
  | nil => intro gs; rfl
  | cons e es ih =>
    intro gs
    rw [List.foldl_cons, shortPairs_cons]
    by_cases he : e.localName = ""
    · rw [if_pos he, if_pos he]
      exact ih gs
    · rw [if_neg he, if_neg he, List.foldl_cons]
      exact ih (groupAppend gs e.localName e)

/-- Helper: folding group appends over a pair list makes lookup collect,
in order, every pair value carrying the key, on top of the initial
groups. -/
theorem lookupAssoc_foldl_group : ∀ (ps : List (String × FEntry))
    (gs : List (String × List FEntry)) (k : String),
    lookupAssoc (ps.foldl (fun gs p => groupAppend gs p.1 p.2) gs) k =
      (match lookupAssoc gs k with
       | some l => some (l ++ (ps.filter (fun p => p.1 = k)).map (fun p => p.2))
       | none =>
         if ((ps.filter (fun p => p.1 = k)).map (fun p => p.2)) = [] then none
         else some ((ps.filter (fun p => p.1 = k)).map (fun p => p.2))) := by
  intro ps
  induction ps with
  | nil =>
    intro gs k
    cases h : lookupAssoc gs k <;> simp [h]
  | cons p ps ih =>
    intro gs k
    rw [List.foldl_cons, ih]
    by_cases hp : p.1 = k
    · subst hp
      rw [List.filter_cons_of_pos (by simp), List.map_cons,
        lookupAssoc_groupAppend_self]
      cases h : lookupAssoc gs p.1 with
      | none => simp
      | some l => simp
    · rw [List.filter_cons_of_neg (by simpa using hp),
        lookupAssoc_groupAppend_ne gs p.1 k p.2 (Ne.symm hp)]

/-- Helper: filtering `shortPairs` at a non-empty key projects to
filtering the table on the local name. -/
theorem shortPairs_filter (es : List FEntry) (key : String) (hk : key ≠ "") :
    ((shortPairs es).filter (fun p => p.1 = key)).map (fun p => p.2) =
      es.filter (fun e => e.localName = key) := by
  induction es with
  | nil => rfl
  | cons e es ih =>
    rw [shortPairs_cons]
    by_cases he : e.localName = ""
    · rw [if_pos he]
      rw [List.filter_cons_of_neg (by simp [he, Ne.symm hk])]
      exact ih
    · rw [if_neg he]
      by_cases hek : e.localName = key
      · rw [List.filter_cons_of_pos (by simpa using hek),
          List.filter_cons_of_pos (by simpa using hek), List.map_cons, ih]
      · rw [List.filter_cons_of_neg (by simpa using hek),
          List.filter_cons_of_neg (by simpa using hek), ih]

/-- Helper: every pair key in `shortPairs` is the entry's non-empty local
name. -/
theorem shortPairs_key (es : List FEntry) (p : String × FEntry)
    (hp : p ∈ shortPairs es) : p.2 ∈ es ∧ p.1 = p.2.localName ∧ p.1 ≠ "" := by
  unfold shortPairs at hp
  rw [List.mem_filterMap] at hp
  obtain ⟨e, he, hfe⟩ := hp
  by_cases h0 : e.localName = ""
  · rw [if_pos h0] at hfe
    exact absurd hfe (by simp)
  · rw [if_neg h0] at hfe
    have hpe : (e.localName, e) = p := Option.some.inj hfe
    subst hpe
    exact ⟨he, rfl, h0⟩

/-- Helper: the `short_names_map` lookup at a non-empty key yields exactly
the table entries bearing that local name, when any exist. -/
theorem buildShort_lookup (es : List FEntry) (key : String) (hk : key ≠ "") :
    lookupAssoc (buildShort es) key =
      if es.filter (fun e => e.localName = key) = [] then none
      else some (es.filter (fun e => e.localName = key)) := by
  unfold buildShort
  rw [buildShort_eq_pairs es [], lookupAssoc_foldl_group,
    shortPairs_filter es key hk]
  rfl

/-- Helper: the `short_names_map` has no empty key. -/
theorem buildShort_lookup_empty (es : List FEntry) :
    lookupAssoc (buildShort es) "" = none := by
  unfold buildShort
  rw [buildShort_eq_pairs es [], lookupAssoc_foldl_group]
  have hnil : (shortPairs es).filter (fun p => p.1 = "") = [] := by
    rw [List.filter_eq_nil_iff]
    intro p hp
    have := (shortPairs_key es p hp).2.2
    simp [this]
  rw [hnil]
  rfl

/-- Helper: a group append keeps the key list, or appends the fresh
key. -/
theorem keys_groupAppend (gs : List (String × List FEntry)) (k : String)
    (e : FEntry) :
    (groupAppend gs k e).map (fun q => q.1) =
      if gs.any (fun q => q.1 = k) then gs.map (fun q => q.1)
      else gs.map (fun q => q.1) ++ [k] := by
  unfold groupAppend
  by_cases hm : gs.any (fun q => q.1 = k)
  · rw [if_pos hm, if_pos hm, List.map_map]
    apply List.map_congr_left
    intro q _
    by_cases hq : q.1 = k <;> simp [hq]
  · rw [if_neg hm, if_neg hm, List.map_append]
    rfl

/-- Helper: a group append preserves distinctness of the keys. -/
theorem nodupKeys_groupAppend (gs : List (String × List FEntry)) (k : String)
    (e : FEntry) (h : (gs.map (fun q => q.1)).Nodup) :
    ((groupAppend gs k e).map (fun q => q.1)).Nodup := by
  rw [keys_groupAppend]
  by_cases hm : gs.any (fun q => q.1 = k)
  · rw [if_pos hm]
    exact h
  · rw [if_neg hm]
    rw [List.nodup_append]
    refine ⟨h, List.nodup_singleton k, ?_⟩
    intro x hx hk
    simp only [List.mem_singleton] at hk
    subst hk
    rw [List.mem_map] at hx
    obtain ⟨q, hq, hq1⟩ := hx
    exact hm (List.any_eq_true.2 ⟨q, hq, by simp [hq1]⟩)

/-- Helper: folding group appends preserves key distinctness. -/
theorem nodupKeys_foldl_group : ∀ (ps : List (String × FEntry))
    (gs : List (String × List FEntry)),
    (gs.map (fun q => q.1)).Nodup →
    (((ps.foldl (fun gs p => groupAppend gs p.1 p.2) gs)).map
      (fun q => q.1)).Nodup := by
  intro ps
  induction ps with
  | nil => intro gs h; exact h
  | cons p ps ih =>
    intro gs h
    rw [List.foldl_cons]
    exact ih _ (nodupKeys_groupAppend gs p.1 p.2 h)

/-- Helper: `short_names_map` has pairwise distinct local-name keys. -/
theorem buildShort_nodupKeys (es : List FEntry) :
    ((buildShort es).map (fun q => q.1)).Nodup := by
  unfold buildShort
  rw [buildShort_eq_pairs es []]
  exact nodupKeys_foldl_group (shortPairs es) [] (by simp)

/-- Helper: in a dictionary with distinct keys, lookup finds each member's
own value. -/
theorem lookupAssoc_of_mem_nodup {α : Type} (gs : List (String × α))
    (g : String × α) (hnd : (gs.map (fun q => q.1)).Nodup) (hg : g ∈ gs) :
    lookupAssoc gs g.1 = some g.2 := by
  induction gs with
  | nil => simp at hg
  | cons q gs ih =>
    rw [List.map_cons, List.nodup_cons] at hnd
    rcases List.mem_cons.1 hg with rfl | hg'
    · exact lookupAssoc_cons_self _ _ _ rfl
    · have hq : q.1 ≠ g.1 := by
        intro hqe
        exact hnd.1 (hqe ▸ List.mem_map.2 ⟨g, hg', rfl⟩)
      rw [lookupAssoc_cons_ne _ _ _ hq]
      exact ih hnd.2 hg'

/-- Helper: every group of `short_names_map` is keyed by a non-empty local
name and holds exactly the table entries bearing it. -/
theorem buildShort_mem_char (es : List FEntry) (g : String × List FEntry)
    (hg : g ∈ buildShort es) :
    g.1 ≠ "" ∧ g.2 = es.filter (fun e => e.localName = g.1) := by
  have hl := lookupAssoc_of_mem_nodup (buildShort es) g
    (buildShort_nodupKeys es) hg
  have hne : g.1 ≠ "" := by
    intro h0
    rw [h0] at hl
    rw [buildShort_lookup_empty es] at hl
    exact absurd hl (by simp)
  refine ⟨hne, ?_⟩
  rw [buildShort_lookup es g.1 hne] at hl
  by_cases hf : es.filter (fun e => e.localName = g.1) = []
  · rw [if_pos hf] at hl
    exact absurd hl (by simp)
  · rw [if_neg hf] at hl
    exact Option.some.inj hl.symm

/-- Helper: membership after a `dict` assignment. -/
theorem mem_updAssoc {α : Type} (m : List (String × α)) (k : String) (v : α)
    (p : String × α) (hp : p ∈ updAssoc m k v) : p ∈ m ∨ p = (k, v) := by
  unfold updAssoc at hp
  by_cases hm : m.any (fun q => q.1 = k)
  · rw [if_pos hm, List.mem_map] at hp
    obtain ⟨q, hq, hqe⟩ := hp
    by_cases hq1 : q.1 = k
    · rw [if_pos hq1] at hqe
      exact Or.inr hqe.symm
    · rw [if_neg hq1] at hqe
      exact Or.inl (hqe ▸ hq)
  · rw [if_neg hm, List.mem_append] at hp
    rcases hp with hp | hp
    · exact Or.inl hp
    · simp only [List.mem_singleton] at hp
      exact Or.inr hp

/-- Helper: membership after folding `dict` assignments. -/
theorem mem_foldl_upd {α : Type} : ∀ (ps : List (String × α))
    (m : List (String × α)) (p : String × α),
    p ∈ ps.foldl (fun m q => updAssoc m q.1 q.2) m → p ∈ m ∨ p ∈ ps := by
  intro ps
  induction ps with
  | nil => intro m p hp; exact Or.inl hp
  | cons q ps ih =>
    intro m p hp
    rw [List.foldl_cons] at hp
    rcases ih _ p hp with h1 | h1
    · rcases mem_updAssoc m q.1 q.2 p h1 with h2 | h2
      · exact Or.inl h2
      · refine Or.inr (h2 ▸ ?_)
        have : q = (q.1, q.2) := rfl
        rw [← this]
        exact List.mem_cons_self q ps
    · exact Or.inr (List.mem_cons_of_mem q h1)

/-- Helper: every `by_name` pair is an entry of the table keyed by its own
non-empty full name. -/
theorem buildByName_mem (es : List FEntry) (p : String × FEntry)
    (hp : p ∈ buildByName es) :
    p.2 ∈ es ∧ p.1 = p.2.fullName ∧ p.1 ≠ "" := by
  unfold buildByName at hp
  rw [buildByName_eq_pairs es []] at hp
  rcases mem_foldl_upd (fullPairs es) [] p hp with h | h
  · simp at h
  · exact fullPairs_key es p h

/-- Helper: a list whose `getLast?` is `some a` contains `a`. -/
theorem getLast?_mem_of_eq_some {α : Type} (l : List α) (a : α)
    (h : l.getLast? = some a) : a ∈ l := by
  obtain ⟨hne, heq⟩ := List.mem_getLast?_eq_getLast (show a ∈ l.getLast? from h)
  exact heq ▸ List.getLast_mem hne

/-- Step 1 of the resolution precedence holds for a key: some table entry
bears it as its (non-empty) full name. -/
def hasExactFull (es : List FEntry) (key : String) : Prop :=
  ∃ f ∈ es, f.fullName = key ∧ key ≠ ""

/-- Step 2 of the resolution precedence hits: the key is a non-empty local
name borne by exactly one entry. -/
def step2Hit (es : List FEntry) (key : String) : Prop :=
  key ≠ "" ∧ (es.filter (fun e => e.localName = key)).length = 1

/-- Step 3 of the resolution precedence can hit: some entry's non-empty
full name matches the key case-insensitively. -/
def ciFullMatch (es : List FEntry) (key : String) : Prop :=
  ∃ f ∈ es, f.fullName ≠ "" ∧ pyLower f.fullName = pyLower key

/-- Step 4 of the resolution precedence can hit: some non-empty local name
matches the key case-insensitively and is borne by exactly one entry. -/
def ciLocalUnique (es : List FEntry) (key : String) : Prop :=
  ∃ b f, b ≠ "" ∧ pyLower b = pyLower key ∧
    es.filter (fun e => e.localName = b) = [f]

/-- Helper: a successful step 1 returns an entry with the exact full
name. -/
theorem step1_some (es : List FEntry) (key : String) (h : hasExactFull es key) :
    ∃ f, lookupAssoc (buildByName es) key = some f ∧ f ∈ es ∧
      f.fullName = key := by
  obtain ⟨f0, hf0, hfn, hk⟩ := h
  rw [buildByName_lookup, if_neg hk]
  have hmem : f0 ∈ es.filter (fun e => e.fullName = key) :=
    List.mem_filter.2 ⟨hf0, by simpa using hfn⟩
  cases hgl : (es.filter (fun e => e.fullName = key)).getLast? with
  | none =>
    rw [List.getLast?_eq_none_iff] at hgl
    rw [hgl] at hmem
    simp at hmem
  | some g =>
    have hgmem := getLast?_mem_of_eq_some _ g hgl
    have := List.mem_filter.1 hgmem
    exact ⟨g, rfl, this.1, by simpa using this.2⟩

/-- Helper: a failed step 1 returns nothing. -/
theorem step1_none (es : List FEntry) (key : String)
    (h : ¬ hasExactFull es key) :
    lookupAssoc (buildByName es) key = none := by
  rw [buildByName_lookup]
  by_cases hk : key = ""
  · rw [if_pos hk]
  · rw [if_neg hk]
    have hnil : es.filter (fun e => e.fullName = key) = [] := by
      rw [List.filter_eq_nil_iff]
      intro e he hek
      exact h ⟨e, he, by simpa using hek, hk⟩
    rw [hnil]
    rfl

/-- Helper: a failed step 2 leaves the group lookup empty or
non-singleton. -/
theorem step2_fail (es : List FEntry) (key : String) (h : ¬ step2Hit es key) :
    lookupAssoc (buildShort es) key = none ∨
    ∃ a b t, lookupAssoc (buildShort es) key = some (a :: b :: t) := by
  by_cases hk : key = ""
  · rw [hk]
    exact Or.inl (buildShort_lookup_empty es)
  · rw [buildShort_lookup es key hk]
    cases hfil : es.filter (fun e => e.localName = key) with
    | nil => simp
    | cons a t =>
      cases t with
      | nil => exact absurd ⟨hk, by rw [hfil]; rfl⟩ h
      | cons b t =>
        rw [if_neg (by simp)]
        exact Or.inr ⟨a, b, t, rfl⟩

/-- Helper: a possible step 3 makes the case-insensitive full-name scan
succeed. -/
theorem step3_find (es : List FEntry) (key : String) (h : ciFullMatch es key) :
    ∃ p, (buildByName es).find? (fun p => pyLower p.1 = pyLower key) = some p := by
  obtain ⟨f, hf, hne, hlow⟩ := h
  have hl : ∃ v, lookupAssoc (buildByName es) f.fullName = some v := by
    rw [buildByName_lookup, if_neg hne]
    have hmem : f ∈ es.filter (fun e => e.fullName = f.fullName) :=
      List.mem_filter.2 ⟨hf, by simp⟩
    cases hgl : (es.filter (fun e => e.fullName = f.fullName)).getLast? with
    | none =>
      rw [List.getLast?_eq_none_iff] at hgl
      rw [hgl] at hmem
      simp at hmem
    | some g => exact ⟨g, rfl⟩
  obtain ⟨v, hv⟩ := hl
  unfold lookupAssoc at hv
  cases hfq : (buildByName es).find? (fun p => p.1 = f.fullName) with
  | none =>
    rw [hfq] at hv
    simp at hv
  | some q =>
    have hqmem := List.mem_of_find?_eq_some hfq
    have hq1' := List.find?_some hfq
    simp only [decide_eq_true_eq] at hq1'
    have hq1 : q.1 = f.fullName := hq1'
    cases hfp : (buildByName es).find? (fun p => pyLower p.1 = pyLower key) with
    | none =>
      rw [List.find?_eq_none] at hfp
      exact absurd (by rw [hq1, hlow] : pyLower q.1 = pyLower key)
        (by simpa using hfp q hqmem)
    | some p => exact ⟨p, rfl⟩

/-- Claim C1 (amended): resolution of an external key against the
flattened field table follows the fixed precedence of
`fill_acroform_with_json`: (1) an entry bearing the key as exact full name
wins; (2) otherwise the key resolves as an exact local name only if
exactly one entry bears that local name, an ambiguous local name falling
through; (3) otherwise a case-insensitive full-name match wins; (4)
otherwise the key resolves to the unique bearer of SOME local name that
matches it case-insensitively and is borne by exactly one field (the
uniqueness condition is per local name, not over the whole set of
case-insensitive matches — see the counterexample); (5) otherwise the key
is silently skipped, no exception being possible.  With fields `A.B` and
`C.B`, key `B` does not resolve; with only `A.B`, key `B` resolves to
it. -/
theorem c1_resolution_precedence (es : List FEntry) (key : String) :
    (hasExactFull es key →
      ∃ f, resolveKey es key = some f ∧ f ∈ es ∧ f.fullName = key) ∧
    (¬ hasExactFull es key → key ≠ "" →
      ∀ f, es.filter (fun e => e.localName = key) = [f] →
      resolveKey es key = some f) ∧
    (¬ hasExactFull es key → ¬ step2Hit es key → ciFullMatch es key →
      ∃ f, resolveKey es key = some f ∧ f ∈ es ∧ f.fullName ≠ "" ∧
        pyLower f.fullName = pyLower key) ∧
    (¬ hasExactFull es key → ¬ step2Hit es key → ¬ ciFullMatch es key →
      ciLocalUnique es key →
      ∃ f, resolveKey es key = some f ∧ f ∈ es ∧ f.localName ≠ "" ∧
        pyLower f.localName = pyLower key ∧
        es.filter (fun e => e.localName = f.localName) = [f]) ∧
    (¬ hasExactFull es key → ¬ step2Hit es key → ¬ ciFullMatch es key →
      ¬ ciLocalUnique es key → resolveKey es key = none) ∧
    resolveKey [⟨"A.B", "B"⟩, ⟨"C.B", "B"⟩] "B" = none ∧
    resolveKey [⟨"A.B", "B"⟩] "B" = some ⟨"A.B", "B"⟩ := by
  have hf3none : ¬ ciFullMatch es key →
      (buildByName es).find? (fun p => pyLower p.1 = pyLower key) = none := by
    intro h3
    rw [List.find?_eq_none]
    intro p hp hpred
    simp only [decide_eq_true_eq] at hpred
    obtain ⟨hmem, hkey, hne0⟩ := buildByName_mem es p hp
    exact h3 ⟨p.2, hmem, by rw [← hkey]; exact hne0, by rw [← hkey]; exact hpred⟩
  refine ⟨?_, ?_, ?_, ?_, ?_, by decide, by decide⟩
  · intro h
    obtain ⟨f, hl, hf, hfn⟩ := step1_some es key h
    refine ⟨f, ?_, hf, hfn⟩
    unfold resolveKey
    rw [hl]
  · intro h1 hk f hfil
    unfold resolveKey
    rw [step1_none es key h1]
    have h2 : lookupAssoc (buildShort es) key = some [f] := by
      rw [buildShort_lookup es key hk, hfil, if_neg (by simp)]
    rw [h2]
  · intro h1 h2 h3
    unfold resolveKey
    rw [step1_none es key h1]
    obtain ⟨p, hp⟩ := step3_find es key h3
    have hq := List.mem_of_find?_eq_some hp
    have hpred := List.find?_some hp
    simp only [decide_eq_true_eq] at hpred
    obtain ⟨hmem, hkey, hne0⟩ := buildByName_mem es p hq
    rcases step2_fail es key h2 with hs | ⟨a, b, t, hs⟩
    · rw [hs, hp]
      exact ⟨p.2, rfl, hmem, by rw [← hkey]; exact hne0,
        by rw [← hkey]; exact hpred⟩
    · rw [hs, hp]
      exact ⟨p.2, rfl, hmem, by rw [← hkey]; exact hne0,
        by rw [← hkey]; exact hpred⟩
  · intro h1 h2 h3 h4
    unfold resolveKey
    rw [step1_none es key h1]
    obtain ⟨b, f, hbne, hblow, hbfil⟩ := h4
    have hlook : lookupAssoc (buildShort es) b = some [f] := by
      rw [buildShort_lookup es b hbne, hbfil, if_neg (by simp)]
    have hfq : ∃ q, (buildShort es).find? (fun g => g.1 = b) = some q := by
      unfold lookupAssoc at hlook
      cases hfq : (buildShort es).find? (fun g => g.1 = b) with
      | none =>
        rw [hfq] at hlook
        simp at hlook
      | some q => exact ⟨q, rfl⟩
    obtain ⟨q, hq⟩ := hfq
    have hqmem := List.mem_of_find?_eq_some hq
    have hq1 := List.find?_some hq
    simp only [decide_eq_true_eq] at hq1
    have hq2 : q.2 = [f] := by
      unfold lookupAssoc at hlook
      rw [hq] at hlook
      simpa using hlook
    have hf4 : ∃ g, (buildShort es).find?
        (fun g => pyLower g.1 = pyLower key && g.2.length = 1) = some g := by
      cases hfg : (buildShort es).find?
          (fun g => pyLower g.1 = pyLower key && g.2.length = 1) with
      | none =>
        rw [List.find?_eq_none] at hfg
        refine absurd ?_ (hfg q hqmem)
        simp [hq1, hq2, hblow]
      | some g => exact ⟨g, rfl⟩
    obtain ⟨g, hg⟩ := hf4
    have hgmem := List.mem_of_find?_eq_some hg
    have hgpred := List.find?_some hg
    simp only [Bool.and_eq_true, decide_eq_true_eq] at hgpred
    obtain ⟨hgne, hgfil⟩ := buildShort_mem_char es g hgmem
    obtain ⟨x, hx⟩ := List.length_eq_one.1 hgpred.2
    have hxmem : x ∈ es.filter (fun e => e.localName = g.1) := by
      rw [← hgfil, hx]
      simp
    have hxf := List.mem_filter.1 hxmem
    have hxl : x.localName = g.1 := by simpa using hxf.2
    rcases step2_fail es key h2 with hs | ⟨a2, b2, t2, hs⟩
    · rw [hs, hf3none h3, hg]
      refine ⟨x, ?_, hxf.1, by rw [hxl]; exact hgne,
        by rw [hxl]; exact hgpred.1, by rw [hxl, ← hgfil]; exact hx⟩
      show g.2.head? = some x
      rw [hx]
      rfl
    · rw [hs, hf3none h3, hg]
      refine ⟨x, ?_, hxf.1, by rw [hxl]; exact hgne,
        by rw [hxl]; exact hgpred.1, by rw [hxl, ← hgfil]; exact hx⟩
      show g.2.head? = some x
      rw [hx]
      rfl
  · intro h1 h2 h3 h4
    unfold resolveKey
    rw [step1_none es key h1]
    have hf4 : (buildShort es).find?
        (fun g => pyLower g.1 = pyLower key && g.2.length = 1) = none := by
      rw [List.find?_eq_none]
      intro g hgmem hpred
      simp only [Bool.and_eq_true, decide_eq_true_eq] at hpred
      obtain ⟨hgne, hgfil⟩ := buildShort_mem_char es g hgmem
      obtain ⟨x, hx⟩ := List.length_eq_one.1 hpred.2
      exact h4 ⟨g.1, x, hgne, hpred.1, by rw [← hgfil]; exact hx⟩
    rcases step2_fail es key h2 with hs | ⟨a, b, t, hs⟩
    · rw [hs, hf3none h3, hf4]
    · rw [hs, hf3none h3, hf4]

/-- Claim C1 counterexample: with fields `X.AB`, `Y.AB` (sharing local
name `AB`) and `Z.ab`, the key `Ab` matches THREE fields' local names
case-insensitively — the match set does not have cardinality one — and
steps 1–3 all fail, yet the code resolves the key to `Z.ab` (the unique
bearer of the local name `ab`) instead of skipping it. -/
theorem c1_counterexample :
    ¬ hasExactFull [⟨"X.AB", "AB"⟩, ⟨"Y.AB", "AB"⟩, ⟨"Z.ab", "ab"⟩] "Ab" ∧
    ¬ step2Hit [⟨"X.AB", "AB"⟩, ⟨"Y.AB", "AB"⟩, ⟨"Z.ab", "ab"⟩] "Ab" ∧
    ¬ ciFullMatch [⟨"X.AB", "AB"⟩, ⟨"Y.AB", "AB"⟩, ⟨"Z.ab", "ab"⟩] "Ab" ∧
    ([⟨"X.AB", "AB"⟩, ⟨"Y.AB", "AB"⟩, (⟨"Z.ab", "ab"⟩ : FEntry)].filter
      (fun e => pyLower e.localName = pyLower "Ab")).length = 3 ∧
    resolveKey [⟨"X.AB", "AB"⟩, ⟨"Y.AB", "AB"⟩, ⟨"Z.ab", "ab"⟩] "Ab" =
      some ⟨"Z.ab", "ab"⟩ := by
  refine ⟨by unfold hasExactFull; decide, by unfold step2Hit; decide,
    by unfold ciFullMatch; decide, by decide, by decide⟩

/-- Witness for C1 on the spec's own examples: with the single field
`A.B`, the key `B` resolves through step 2. -/
theorem c1_resolution_precedence_witness :
    resolveKey [⟨"A.B", "B"⟩] "B" = some ⟨"A.B", "B"⟩ :=
  (c1_resolution_precedence [⟨"A.B", "B"⟩] "B").2.1
    (by unfold hasExactFull; decide) (by decide) ⟨"A.B", "B"⟩ (by decide)
